import Mathlib

/-!
Verification development for the gTakeOutThis core: a shallow embedding of
the download orchestration core (downloader.py), the archive extraction
engine (extractor.py) and the photo organization engine (organizer.py),
together with theorems settling the specification claims.

Machine integers do not occur: Python integers are unbounded, so Nat/Int
model them exactly.  Filesystem and browser effects are modelled by explicit
state (lists of file names, scenario records) and event traces.
-/

/-! ## Decimal rendering of natural numbers

Models Python decimal formatting of a non-negative integer, as used by
f-strings in organizer.py (`f"{stem}-{counter}{suffix}"`).  Defined with
structural fuel so that concrete instances evaluate in the kernel. -/

def digitChar (n : Nat) : Char :=
  if n = 0 then '0' else if n = 1 then '1' else if n = 2 then '2'
  else if n = 3 then '3' else if n = 4 then '4' else if n = 5 then '5'
  else if n = 6 then '6' else if n = 7 then '7' else if n = 8 then '8' else '9'

def digitVal (c : Char) : Nat :=
  if c = '0' then 0 else if c = '1' then 1 else if c = '2' then 2
  else if c = '3' then 3 else if c = '4' then 4 else if c = '5' then 5
  else if c = '6' then 6 else if c = '7' then 7 else if c = '8' then 8
  else if c = '9' then 9 else 10

def natDigitsAux : Nat → Nat → List Char
  | 0, _ => []
  | fuel + 1, n =>
    if n < 10 then [digitChar n]
    else natDigitsAux fuel (n / 10) ++ [digitChar (n % 10)]

def natDigits (n : Nat) : List Char := natDigitsAux (n + 1) n

def natStr (n : Nat) : String := String.mk (natDigits n)

def digitsVal (cs : List Char) : Nat :=
  cs.foldl (fun acc c => acc * 10 + digitVal c) 0

/-! ## File name stem and suffix

Models pathlib's `stem`/`suffix`: the suffix starts at the last dot of the
name, provided that dot is neither the first nor the last character. -/

def lastDotAux : List Char → Nat → Option Nat → Option Nat
  | [], _, acc => acc
  | c :: rest, i, acc => lastDotAux rest (i + 1) (if c = '.' then some i else acc)

def lastDot (s : String) : Option Nat := lastDotAux s.data 0 none

def fileSuffix (s : String) : String :=
  match lastDot s with
  | some i => if 0 < i ∧ i + 1 < s.data.length then String.mk (s.data.drop i) else ""
  | none => ""

def fileStem (s : String) : String :=
  match lastDot s with
  | some i => if 0 < i ∧ i + 1 < s.data.length then String.mk (s.data.take i) else s
  | none => s

/-! ## Civil-date arithmetic

Conversion from Unix epoch seconds to a civil date, as performed by Python's
`datetime.fromtimestamp` with an explicit timezone: the timezone is modelled
as a fixed offset (seconds east of UTC). -/

structure PDateTime where
  year : Int
  month : Nat
  day : Nat
  hour : Nat
  minute : Nat
  second : Nat
deriving DecidableEq, Repr

def civilFromDays (z0 : Int) : Int × Nat × Nat :=
  let z := z0 + 719468
  let era : Int := z.fdiv 146097
  let doe : Nat := (z - era * 146097).toNat
  let yoe : Nat := (doe - doe / 1460 + doe / 36524 - doe / 146096) / 365
  let y : Int := (yoe : Int) + era * 400
  let doy : Nat := doe - (365 * yoe + yoe / 4 - yoe / 100)
  let mp : Nat := (5 * doy + 2) / 153
  let d : Nat := doy - (153 * mp + 2) / 5 + 1
  let m : Nat := if mp < 10 then mp + 3 else mp - 9
  (if m ≤ 2 then y + 1 else y, m, d)

def fromTimestampT (ts off : Int) : PDateTime :=
  let t := ts + off
  let days := t.fdiv 86400
  let rem : Nat := (t - days * 86400).toNat
  let c := civilFromDays days
  ⟨c.1, c.2.1, c.2.2, rem / 3600, rem % 3600 / 60, rem % 60⟩

def fromTimestampOpt (ts off : Int) : Option PDateTime :=
  let dt := fromTimestampT ts off
  if 1 ≤ dt.year ∧ dt.year ≤ 9999 then some dt else none

/-! ## Collision-free destination names (organizer.py, `_ensure_unique_path`)

`dest_dir / filename` is returned unchanged if it does not exist; otherwise
numeric suffixes `-2`, `-3`, … are tried in order, first fit wins.  The
directory contents are modelled as the list of file names present in it.
The scan is given `existing.length + 1` fuel; the pigeonhole lemmas below
show this always suffices, so the fuelled scan is exact first-fit. -/

def candidateName (stem suffix : String) (k : Nat) : String :=
  stem ++ "-" ++ natStr k ++ suffix

def scanFree (existing : List String) (stem suffix : String) : Nat → Nat → Nat
  | 0, k => k
  | fuel + 1, k =>
    if candidateName stem suffix k ∈ existing then
      scanFree existing stem suffix fuel (k + 1)
    else k

def ensure_unique_path (existing : List String) (filename : String) : String :=
  if filename ∈ existing then
    candidateName (fileStem filename) (fileSuffix filename)
      (scanFree existing (fileStem filename) (fileSuffix filename) (existing.length + 1) 2)
  else filename

/-! ## JSON values and the sidecar lookup (organizer.py, `_find_sidecar_date`)

A JSON value as produced by `json.loads`.  Python truthiness and `int(...)`
coercion are modelled explicitly; `int(...)` applied to a value it cannot
convert raises, which the source catches by skipping the candidate file, so
failure is modelled as `none`. -/

inductive Json where
  | null
  | bool (b : Bool)
  | num (n : Int)
  | str (s : String)
  | arr (elems : List Json)
  | obj (fields : List (String × Json))

def alookup {α : Type} : List (String × α) → String → Option α
  | [], _ => none
  | (k, v) :: rest, key => if k = key then some v else alookup rest key

def jsonTruthy : Json → Bool
  | .null => false
  | .bool b => b
  | .num n => n ≠ 0
  | .str s => s ≠ ""
  | .arr l => ¬l.isEmpty
  | .obj f => ¬f.isEmpty

def parseNatDigits (cs : List Char) : Option Nat :=
  if cs ≠ [] ∧ cs.all (fun c => digitVal c < 10) then some (digitsVal cs) else none

def parseIntStr (s : String) : Option Int :=
  match s.data with
  | '-' :: rest => (parseNatDigits rest).map (fun n => -(n : Int))
  | cs => (parseNatDigits cs).map (fun n => (n : Int))

def jsonToInt : Json → Option Int
  | .num n => some n
  | .bool b => some (if b then 1 else 0)
  | .str s => parseIntStr s
  | _ => none

/-- `d.get("timestamp") or d.get("seconds")` followed by `int(val)`:
the `or` falls through on a falsy timestamp value. -/
def tsFromTimeObj (fields : List (String × Json)) : Option Int :=
  let val : Option Json :=
    match alookup fields "timestamp" with
    | some v => if jsonTruthy v then some v else alookup fields "seconds"
    | none => alookup fields "seconds"
  match val with
  | some v => jsonToInt v
  | none => none

/-- The timestamp a single sidecar JSON document resolves to.  A dict is
consulted for a dict-valued `photoTakenTime`, else a dict-valued
`creationTime`; a non-empty list whose first element is a dict is consulted
only for that element's `photoTakenTime.timestamp`. -/
def extractTs : Json → Option Int
  | .obj fields =>
    (match alookup fields "photoTakenTime" with
     | some (.obj pt) => tsFromTimeObj pt
     | _ =>
       match alookup fields "creationTime" with
       | some (.obj ct) => tsFromTimeObj ct
       | _ => none)
  | .arr (first :: _) =>
    (match first with
     | .obj f0 =>
       (match alookup f0 "photoTakenTime" with
        | some (.obj pt) =>
          (match alookup pt "timestamp" with
           | some v => jsonToInt v
           | none => none)
        | _ => none)
     | _ => none)
  | _ => none

/-- One candidate sidecar file: `if ts:` treats both a missing and a zero
timestamp as absent; an out-of-range timestamp raises in
`datetime.fromtimestamp` and is caught, yielding no date either. -/
def candidateDate (j : Json) (off : Int) : Option PDateTime :=
  match extractTs j with
  | some ts => if ts ≠ 0 then fromTimestampOpt ts off else none
  | none => none

/-- `_find_sidecar_date`: the filesystem is modelled as an association list
from file names to parsed JSON contents (a missing or unparsable file is
absent from it).  Candidates are `<name><ext>.json` then `<name>.json`. -/
def find_sidecar_date (fs : List (String × Json)) (name : String) (off : Int) :
    Option PDateTime :=
  match (alookup fs (name ++ ".json")).bind (fun j => candidateDate j off) with
  | some d => some d
  | none => (alookup fs (fileStem name ++ ".json")).bind (fun j => candidateDate j off)

/-! ## EXIF dates (organizer.py, `_get_exif_date`) -/

def isLeapYear (y : Int) : Bool := y % 4 = 0 ∧ (y % 100 ≠ 0 ∨ y % 400 = 0)

def daysInMonth (y : Int) (m : Nat) : Nat :=
  if m = 2 then (if isLeapYear y then 29 else 28)
  else if m = 4 ∨ m = 6 ∨ m = 9 ∨ m = 11 then 30
  else 31

def splitOnChar (sep : Char) : List Char → List (List Char)
  | [] => [[]]
  | c :: rest =>
    let r := splitOnChar sep rest
    if c = sep then [] :: r
    else
      match r with
      | [] => [[c]]
      | g :: gs => (c :: g) :: gs

/-- `datetime.strptime(s, "%Y:%m:%d %H:%M:%S")`: fixed pattern, all six
fields decimal, field values validated against the calendar. -/
def parseExifDate (s : String) : Option PDateTime :=
  match splitOnChar ' ' s.data with
  | [dpart, tpart] =>
    (match splitOnChar ':' dpart, splitOnChar ':' tpart with
     | [ys, ms, ds], [hs, mins, ss] =>
       (match parseNatDigits ys, parseNatDigits ms, parseNatDigits ds,
              parseNatDigits hs, parseNatDigits mins, parseNatDigits ss with
        | some y, some mo, some d, some h, some mi, some sec =>
          if 1 ≤ y ∧ y ≤ 9999 ∧ 1 ≤ mo ∧ mo ≤ 12 ∧ 1 ≤ d ∧ d ≤ daysInMonth y mo ∧
              h ≤ 23 ∧ mi ≤ 59 ∧ sec ≤ 59 then
            some ⟨(y : Int), mo, d, h, mi, sec⟩
          else none
        | _, _, _, _, _, _ => none)
     | _, _ => none)
  | _ => none

/-- The ranked EXIF keys: original capture time, then digitized time, then
the generic modification tag. -/
def exifKeys : List String := ["DateTimeOriginal", "DateTimeDigitized", "DateTime"]

def exifDateFromKeys (tags : List (String × String)) : List String → Option PDateTime
  | [] => none
  | k :: rest =>
    match alookup tags k with
    | some v =>
      if v = "" then exifDateFromKeys tags rest
      else
        match parseExifDate v with
        | some d => some d
        | none => exifDateFromKeys tags rest
    | none => exifDateFromKeys tags rest

/-- `_get_exif_date`: the embedded metadata of a file is modelled as the tag
map the source builds (tag name to raw string value); an unreadable image or
absent EXIF block is the empty map. -/
def get_exif_date (tags : List (String × String)) : Option PDateTime :=
  exifDateFromKeys tags exifKeys

/-! ## Best date and destination (organizer.py, `_best_date` / `_move_one`) -/

structure Photo where
  name : String
  tags : List (String × String)
  mtime : Int

/-- `_best_date`: embedded metadata first, then the sidecar, then the
filesystem modification time. -/
def best_date (fs : List (String × Json)) (p : Photo) (off : Int) : PDateTime :=
  match get_exif_date p.tags with
  | some d => d
  | none =>
    match find_sidecar_date fs p.name off with
    | some d => d
    | none => fromTimestampT p.mtime off

def leftPad (width : Nat) (s : String) : String :=
  String.mk (List.replicate (width - s.data.length) '0' ++ s.data)

def padIntWidth (width : Nat) (n : Int) : String :=
  if n < 0 then "-" ++ leftPad (width - 1) (natStr (-n).toNat)
  else leftPad width (natStr n.toNat)

/-- The destination path `_move_one` computes, relative to the destination
root: `YYYY/MM/DD/` plus the collision-resolved file name.  `existing` is
the content of the target date folder. -/
def move_dest (existing : List String) (fs : List (String × Json)) (p : Photo)
    (off : Int) : String :=
  let dt := best_date fs p off
  padIntWidth 4 dt.year ++ "/" ++ padIntWidth 2 (dt.month : Int) ++ "/" ++
    padIntWidth 2 (dt.day : Int) ++ "/" ++ ensure_unique_path existing p.name

/-! ## Image extension filter and the organize trace (organizer.py) -/

def imageExts : List String :=
  [".jpg", ".jpeg", ".png", ".heic", ".webp", ".tif", ".tiff", ".gif"]

def lowerChar (c : Char) : Char :=
  if 'A' ≤ c ∧ c ≤ 'Z' then Char.ofNat (c.toNat + 32) else c

def lowerStr (s : String) : String := String.mk (s.data.map lowerChar)

/-- One unit of organize work: the photo, whether its move succeeds, and its
byte size. -/
structure OrgItem where
  photo : Photo
  moveOk : Bool
  size : Nat

inductive OrgEvent where
  | evStart (totalFiles : Nat)
  | fileComplete (filename : String) (bytes : Nat)
  | fileError
  | evEnd
deriving DecidableEq

def isImageFile (name : String) : Bool := lowerStr (fileSuffix name) ∈ imageExts

/-- `organize_photos`, as the sequence of progress events it emits.  Files
whose extension is not on the allow-list are dropped before the start event;
an empty batch emits the start/end pair and returns.  Worker completion
order is modelled by the order of `items`. -/
def organize_photos (items : List OrgItem) : List OrgEvent :=
  let files := items.filter (fun it => isImageFile it.photo.name)
  OrgEvent.evStart files.length ::
    (files.flatMap (fun it =>
      if it.moveOk then [OrgEvent.fileComplete it.photo.name it.size]
      else [OrgEvent.fileError])) ++ [OrgEvent.evEnd]

/-! ## Archive extraction (extractor.py) -/

/-- One archive as found on disk: `readable` is whether its table of
contents can be read when sizes are precomputed (and again at extraction);
`extractOk` is whether extracting its entries succeeds. -/
structure Archive where
  name : String
  readable : Bool
  entrySizes : List Nat
  extractOk : Bool
deriving DecidableEq

/-- `_calc_archive_sizes` for one archive: sum of uncompressed entry sizes,
zero when the archive cannot be read. -/
def calc_archive_size (a : Archive) : Nat :=
  if a.readable then a.entrySizes.sum else 0

/-- `_extract_archive`: returns the bytes written, or fails.  A failure
loses the whole archive's contribution (the worker result is an
exception). -/
def extract_archive (a : Archive) : Option Nat :=
  if a.readable ∧ a.extractOk then some a.entrySizes.sum else none

inductive ExtEvent where
  | evStart (totalFiles : Nat)
  | fileProgress (archive : String) (bytesDone bytesTotal : Nat)
  | fileComplete (archive : String)
  | fileError (archive : String)
  | evEnd
deriving DecidableEq

def extractLoop (total : Nat) : List Archive → Nat → List ExtEvent
  | [], _ => []
  | a :: rest, done =>
    match extract_archive a with
    | some b =>
      ExtEvent.fileProgress a.name (done + b) total :: ExtEvent.fileComplete a.name ::
        extractLoop total rest (done + b)
    | none => ExtEvent.fileError a.name :: extractLoop total rest done

/-- `extract_all`, as the sequence of progress events it emits.  `archives`
is the discovery list (it determines the totals); `order` is the order in
which the worker pool completes them (any permutation of `archives`). -/
def extract_all (archives order : List Archive) : List ExtEvent :=
  ExtEvent.evStart archives.length ::
    (if archives.isEmpty then [ExtEvent.evEnd]
     else extractLoop ((archives.map calc_archive_size).sum) order 0 ++ [ExtEvent.evEnd])

/-- The `bytes_done` values carried by the progress events, in emission
order. -/
def doneValues (evs : List ExtEvent) : List Nat :=
  evs.filterMap (fun e =>
    match e with
    | ExtEvent.fileProgress _ d _ => some d
    | _ => none)

def isExtSuccess (a : Archive) : Bool := a.readable ∧ a.extractOk

/-! ## Download state (downloader.py, `DownloadState`)

Python sets are modelled as duplicate-free lists built with guarded
insertion; `save` writes both members sorted, which is what
`json.dumps({"completed_keys": sorted(...), "completed_files": sorted(...)})`
persists. -/

def insertNew (x : String) (l : List String) : List String :=
  if x ∈ l then l else x :: l

structure DLState where
  completedKeys : List String
  completedFiles : List String
deriving DecidableEq

/-- The persisted JSON document: both arrays, sorted. -/
structure SavedState where
  keys : List String
  files : List String
deriving DecidableEq

def save (s : DLState) : SavedState :=
  ⟨List.insertionSort (· ≤ ·) s.completedKeys, List.insertionSort (· ≤ ·) s.completedFiles⟩

/-- `mark_completed(key, filename)`: each argument is added when truthy
(present and non-empty); the state is then saved. -/
def mark_completed (s : DLState) (key file : Option String) : DLState :=
  let s1 :=
    match key with
    | some k => if k ≠ "" then { s with completedKeys := insertNew k s.completedKeys } else s
    | none => s
  match file with
  | some f => if f ≠ "" then { s1 with completedFiles := insertNew f s1.completedFiles } else s1
  | none => s1

/-! ## Download session scenario (downloader.py, `download_all`)

One discovered target carries its composite key, the suggested file name
its transfer reports, and whether the click/await/save sequence succeeds. -/

structure Target where
  key : String
  suggested : String
  transferOk : Bool
deriving DecidableEq

/-- Outcome of one acquisition attempt's discovery wait: targets found,
the poll ceiling elapsing with none, or an exception whose message does or
does not indicate a closed page/context. -/
inductive WaitResult where
  | found (targets : List Target)
  | timeout
  | errClosed
  | errOther

inductive DlEvent where
  | ctxOpen
  | ctxClose
  | stateSave (sv : SavedState)
  | evStart (totalFiles completedKeyCount : Nat)
  | evSkipped (key : String)
  | evComplete (filename : String)
  | evError (key : String)
  | evEnd
  | click (key : String)
  | saveAs (filename : String)
deriving DecidableEq

inductive AcqResult where
  | ok (targets : List Target)
  | raised

/-- The attempt loop around the discovery wait: a closed-page error with
attempts to spare closes the context, opens a fresh one and retries; any
other error, or budget exhaustion, propagates (without closing). -/
def acquire : List WaitResult → Nat → List DlEvent × AcqResult
  | [], _ => ([], AcqResult.ok [])
  | w :: rest, attempts =>
    match w with
    | WaitResult.found ts => ([], AcqResult.ok ts)
    | WaitResult.timeout => ([], AcqResult.ok [])
    | WaitResult.errClosed =>
      if attempts < 3 then
        let r := acquire rest (attempts + 1)
        (DlEvent.ctxClose :: DlEvent.ctxOpen :: r.1, r.2)
      else ([], AcqResult.raised)
    | WaitResult.errOther => ([], AcqResult.raised)

structure LoopSt where
  st : DLState
  disk : List String
  count : Nat

/-- `download.suggested_filename or "download.zip"`. -/
def suggestedName (t : Target) : String :=
  if t.suggested = "" then "download.zip" else t.suggested

/-- The body of one drain iteration, after the cancellation poll: skip a
completed key; otherwise click and await the transfer; if the suggested
file already exists on disk, record completion without saving the bytes;
otherwise save the bytes and record completion; failures emit an error
event and change nothing. -/
def processTarget (resume : Bool) (t : Target) (ls : LoopSt) : List DlEvent × LoopSt :=
  if resume ∧ t.key ∈ ls.st.completedKeys then
    ([DlEvent.evSkipped t.key], { ls with count := ls.count + 1 })
  else if ¬ t.transferOk then
    ([DlEvent.evError t.key], ls)
  else
    let sugg := suggestedName t
    let st2 := mark_completed ls.st (some t.key) (some sugg)
    if resume ∧ sugg ∈ ls.disk then
      ([DlEvent.click t.key, DlEvent.stateSave (save st2), DlEvent.evComplete sugg],
        { ls with st := st2, count := ls.count + 1 })
    else
      ([DlEvent.click t.key, DlEvent.saveAs sugg, DlEvent.stateSave (save st2),
          DlEvent.evComplete sugg],
        ⟨st2, sugg :: ls.disk, ls.count + 1⟩)

/-- The drain loop: the cancel token is polled once at the top of each
iteration (`cancel i` is its value at iteration `i`), and a set token stops
the loop there. -/
def drain (resume : Bool) (cancel : Nat → Bool) :
    List Target → Nat → LoopSt → List DlEvent × LoopSt
  | [], _, ls => ([], ls)
  | t :: ts, i, ls =>
    if cancel i then ([], ls)
    else
      let p := processTarget resume t ls
      let r := drain resume cancel ts (i + 1) p.2
      (p.1 ++ r.1, r.2)

structure DlScenario where
  loaded : DLState
  diskZips : List String
  waits : List WaitResult
  resume : Bool
  cancel : Nat → Bool

/-- Session start: the loaded state merged with the `*.zip` names already
on disk. -/
def initMerge (loaded : DLState) (diskZips : List String) : DLState :=
  { loaded with
    completedFiles := diskZips.foldl (fun fs n => insertNew n fs) loaded.completedFiles }

/-- `download_all`, as the sequence of externally visible events it
produces and whether it returns normally (`true`) or raises (`false`). -/
def download_all (sc : DlScenario) : List DlEvent × Bool :=
  let st0 := initMerge sc.loaded sc.diskZips
  let acq := acquire sc.waits 1
  match acq.2 with
  | AcqResult.raised =>
    (DlEvent.stateSave (save st0) :: DlEvent.ctxOpen :: acq.1, false)
  | AcqResult.ok targets =>
    let startEv := DlEvent.evStart targets.length st0.completedKeys.length
    if targets.isEmpty then
      (DlEvent.stateSave (save st0) :: DlEvent.ctxOpen :: acq.1 ++ [startEv, DlEvent.ctxClose],
        true)
    else
      let d := drain sc.resume sc.cancel targets 0 ⟨st0, sc.diskZips, 0⟩
      (DlEvent.stateSave (save st0) :: DlEvent.ctxOpen :: acq.1 ++ [startEv] ++ d.1 ++
          [DlEvent.ctxClose, DlEvent.evEnd],
        true)

/-! Trace projections. -/

def saves (evs : List DlEvent) : List SavedState :=
  evs.filterMap (fun e =>
    match e with
    | DlEvent.stateSave sv => some sv
    | _ => none)

def completions (evs : List DlEvent) : List String :=
  evs.filterMap (fun e =>
    match e with
    | DlEvent.evComplete f => some f
    | _ => none)

def saveAsValues (evs : List DlEvent) : List String :=
  evs.filterMap (fun e =>
    match e with
    | DlEvent.saveAs f => some f
    | _ => none)

/-- Pointwise containment of persisted documents: nothing committed is
lost. -/
def svSub (a b : SavedState) : Prop := a.keys ⊆ b.keys ∧ a.files ⊆ b.files

def stSub (a b : DLState) : Prop :=
  a.completedKeys ⊆ b.completedKeys ∧ a.completedFiles ⊆ b.completedFiles

/-- Number of leading iterations the cancel token lets through, starting
at index `i`, over `n` iterations. -/
def runLen (cancel : Nat → Bool) : Nat → Nat → Nat
  | _, 0 => 0
  | i, n + 1 => if cancel i then 0 else runLen cancel (i + 1) n + 1

/-! ## Supporting lemmas: extraction progress -/

def sumSucc (l : List Archive) : Nat :=
  ((l.filter isExtSuccess).map (fun a => a.entrySizes.sum)).sum

theorem digitVal_digitChar {n : Nat} (h : n < 10) : digitVal (digitChar n) = n := by
  interval_cases n <;> decide

theorem digitsVal_append_singleton (cs : List Char) (c : Char) :
    digitsVal (cs ++ [c]) = digitsVal cs * 10 + digitVal c := by
  simp [digitsVal, List.foldl_append]

theorem digitsVal_natDigitsAux :
    ∀ (fuel n : Nat), n < 10 ^ fuel → digitsVal (natDigitsAux fuel n) = n := by
  intro fuel
  induction fuel with
  | zero => intro n h; simp [natDigitsAux, digitsVal]; omega
  | succ fuel ih =>
    intro n h
    by_cases h10 : n < 10
    · simp [natDigitsAux, h10, digitsVal, digitVal_digitChar h10]
    · have hdiv : n / 10 < 10 ^ fuel := by
        rw [Nat.div_lt_iff_lt_mul (by omega)]
        calc n < 10 ^ (fuel + 1) := h
        _ = 10 ^ fuel * 10 := by ring
      have hmod : n % 10 < 10 := Nat.mod_lt _ (by omega)
      simp only [natDigitsAux, if_neg h10]
      rw [digitsVal_append_singleton, ih _ hdiv, digitVal_digitChar hmod]
      omega

theorem digitsVal_natDigits (n : Nat) : digitsVal (natDigits n) = n := by
  have h : n < 10 ^ (n + 1) := by
    calc n < n + 1 := by omega
    _ ≤ 10 ^ (n + 1) := Nat.le_of_lt (Nat.lt_pow_self (by omega) _)
  exact digitsVal_natDigitsAux (n + 1) n h

theorem natDigits_injective : Function.Injective natDigits := by
  intro a b h
  have := digitsVal_natDigits a
  rw [h, digitsVal_natDigits] at this
  omega

theorem natStr_injective : Function.Injective natStr := by
  intro a b h
  exact natDigits_injective (congrArg String.data h)

theorem candidateName_injective (stem suffix : String) :
    Function.Injective (candidateName stem suffix) := by
  intro a b h
  apply natStr_injective
  have hd : (candidateName stem suffix a).data = (candidateName stem suffix b).data :=
    congrArg String.data h
  simp only [candidateName] at hd
  have h3 : ((stem ++ "-").data ++ (natStr a).data) ++ suffix.data
      = ((stem ++ "-").data ++ (natStr b).data) ++ suffix.data := hd
  have h4 := List.append_cancel_right h3
  have h5 := List.append_cancel_left h4
  exact String.ext h5

theorem exists_free_candidate (existing : List String) (stem suffix : String) (k : Nat) :
    ∃ j, j ≤ existing.length ∧ candidateName stem suffix (k + j) ∉ existing := by
  by_contra hcon
  push_neg at hcon
  have hmem : ∀ j : Fin (existing.length + 1),
      candidateName stem suffix (k + j.val) ∈ existing.toFinset := by
    intro j
    rw [List.mem_toFinset]
    exact hcon j.val (Nat.lt_succ_iff.mp j.isLt)
  have hinj : Set.InjOn (fun j : Fin (existing.length + 1) =>
      candidateName stem suffix (k + j.val)) (Finset.univ : Finset (Fin (existing.length + 1))) := by
    intro a _ b _ hab
    have := candidateName_injective stem suffix hab
    exact Fin.ext (by omega)
  have hcard := Finset.card_le_card_of_injOn
    (fun j : Fin (existing.length + 1) => candidateName stem suffix (k + j.val))
    (fun a _ => hmem a) hinj
  rw [Finset.card_univ, Fintype.card_fin] at hcard
  have := existing.toFinset_card_le
  omega

theorem scanFree_spec (existing : List String) (stem suffix : String) :
    ∀ (fuel k : Nat), (∃ j, j < fuel ∧ candidateName stem suffix (k + j) ∉ existing) →
      candidateName stem suffix (scanFree existing stem suffix fuel k) ∉ existing ∧
      k ≤ scanFree existing stem suffix fuel k ∧
      ∀ m, k ≤ m → m < scanFree existing stem suffix fuel k →
        candidateName stem suffix m ∈ existing := by
  intro fuel
  induction fuel with
  | zero => intro k ⟨j, hj, _⟩; omega
  | succ fuel ih =>
    intro k ⟨j, hj, hfree⟩
    by_cases hk : candidateName stem suffix k ∈ existing
    · have hj0 : j ≠ 0 := by
        intro h0; rw [h0, Nat.add_zero] at hfree; exact hfree hk
      obtain ⟨j', rfl⟩ : ∃ j', j = j' + 1 := ⟨j - 1, by omega⟩
      have hex : ∃ j, j < fuel ∧ candidateName stem suffix (k + 1 + j) ∉ existing :=
        ⟨j', by omega, by rwa [show k + 1 + j' = k + (j' + 1) by omega]⟩
      obtain ⟨h1, h2, h3⟩ := ih (k + 1) hex
      simp only [scanFree, if_pos hk]
      refine ⟨h1, by omega, ?_⟩
      intro m hm1 hm2
      rcases Nat.eq_or_lt_of_le hm1 with h | h
      · exact h ▸ hk
      · exact h3 m h hm2
    · simp only [scanFree, if_neg hk]
      exact ⟨hk, Nat.le_refl k, fun m h1 h2 => absurd (Nat.lt_of_le_of_lt h1 h2) (Nat.lt_irrefl k)⟩

theorem ensure_unique_path_not_mem (existing : List String) (filename : String) :
    ensure_unique_path existing filename ∉ existing := by
  unfold ensure_unique_path
  by_cases h : filename ∈ existing
  · rw [if_pos h]
    obtain ⟨j, hj, hfree⟩ :=
      exists_free_candidate existing (fileStem filename) (fileSuffix filename) 2
    exact (scanFree_spec existing _ _ (existing.length + 1) 2 ⟨j, by omega, hfree⟩).1
  · rw [if_neg h]; exact h

theorem ensure_unique_path_first_fit (existing : List String) (filename : String)
    (h : filename ∈ existing) :
    ∃ k, 2 ≤ k ∧
      ensure_unique_path existing filename
        = candidateName (fileStem filename) (fileSuffix filename) k ∧
      candidateName (fileStem filename) (fileSuffix filename) k ∉ existing ∧
      ∀ m, 2 ≤ m → m < k →
        candidateName (fileStem filename) (fileSuffix filename) m ∈ existing := by
  obtain ⟨j, hj, hfree⟩ :=
    exists_free_candidate existing (fileStem filename) (fileSuffix filename) 2
  obtain ⟨h1, h2, h3⟩ :=
    scanFree_spec existing (fileStem filename) (fileSuffix filename)
      (existing.length + 1) 2 ⟨j, by omega, hfree⟩
  refine ⟨scanFree existing (fileStem filename) (fileSuffix filename) (existing.length + 1) 2,
    h2, ?_, h1, h3⟩
  unfold ensure_unique_path
  rw [if_pos h]

/-! ## Supporting lemmas: state growth and persistence -/

theorem insertNew_subset (x : String) (l : List String) : l ⊆ insertNew x l := by
  unfold insertNew
  by_cases h : x ∈ l
  · rw [if_pos h]; exact fun _ hm => hm
  · rw [if_neg h]; exact List.subset_cons_self x l

theorem mem_insertNew_self (x : String) (l : List String) : x ∈ insertNew x l := by
  unfold insertNew
  by_cases h : x ∈ l
  · rwa [if_pos h]
  · rw [if_neg h]; exact List.mem_cons_self x l

theorem mem_insertNew_iff (x y : String) (l : List String) :
    y ∈ insertNew x l ↔ y = x ∨ y ∈ l := by
  unfold insertNew
  by_cases h : x ∈ l
  · rw [if_pos h]
    constructor
    · exact Or.inr
    · rintro (rfl | hy) <;> [exact h; exact hy]
  · rw [if_neg h, List.mem_cons]

theorem stSub_refl (s : DLState) : stSub s s := ⟨fun _ h => h, fun _ h => h⟩

theorem stSub_trans {a b c : DLState} (h1 : stSub a b) (h2 : stSub b c) : stSub a c :=
  ⟨fun _ h => h2.1 (h1.1 h), fun _ h => h2.2 (h1.2 h)⟩

theorem mark_completed_stSub (s : DLState) (key file : Option String) :
    stSub s (mark_completed s key file) := by
  unfold mark_completed
  constructor
  · intro x hx
    cases key with
    | none =>
      cases file with
      | none => exact hx
      | some f => by_cases hf : f ≠ "" <;> simp [hf] <;> exact hx
    | some k =>
      cases file with
      | none =>
        by_cases hk : k ≠ "" <;> simp [hk]
        · exact insertNew_subset k _ hx
        · exact hx
      | some f =>
        by_cases hk : k ≠ "" <;> by_cases hf : f ≠ "" <;> simp [hk, hf]
        · exact insertNew_subset k _ hx
        · exact insertNew_subset k _ hx
        · exact hx
        · exact hx
  · intro x hx
    cases key with
    | none =>
      cases file with
      | none => exact hx
      | some f =>
        by_cases hf : f ≠ "" <;> simp [hf]
        · exact insertNew_subset f _ hx
        · exact hx
    | some k =>
      cases file with
      | none => by_cases hk : k ≠ "" <;> simp [hk] <;> exact hx
      | some f =>
        by_cases hk : k ≠ "" <;> by_cases hf : f ≠ "" <;> simp [hk, hf]
        · exact insertNew_subset f _ hx
        · exact hx
        · exact insertNew_subset f _ hx
        · exact hx

theorem mark_completed_mem (s : DLState) (k f : String) (hk : k ≠ "") (hf : f ≠ "") :
    k ∈ (mark_completed s (some k) (some f)).completedKeys ∧
    f ∈ (mark_completed s (some k) (some f)).completedFiles := by
  unfold mark_completed
  simp only [hk, hf, if_pos, ne_eq, not_false_eq_true, if_true]
  exact ⟨mem_insertNew_self k _, mem_insertNew_self f _⟩

theorem mem_save_keys (s : DLState) (x : String) :
    x ∈ (save s).keys ↔ x ∈ s.completedKeys :=
  (List.perm_insertionSort (· ≤ ·) s.completedKeys).mem_iff

theorem mem_save_files (s : DLState) (x : String) :
    x ∈ (save s).files ↔ x ∈ s.completedFiles :=
  (List.perm_insertionSort (· ≤ ·) s.completedFiles).mem_iff

theorem save_sorted (s : DLState) :
    (save s).keys.Sorted (· ≤ ·) ∧ (save s).files.Sorted (· ≤ ·) :=
  ⟨List.sorted_insertionSort (· ≤ ·) s.completedKeys,
   List.sorted_insertionSort (· ≤ ·) s.completedFiles⟩

theorem svSub_of_stSub {a b : DLState} (h : stSub a b) : svSub (save a) (save b) := by
  constructor
  · intro x hx
    rw [mem_save_keys] at hx ⊢
    exact h.1 hx
  · intro x hx
    rw [mem_save_files] at hx ⊢
    exact h.2 hx

theorem svSub_refl (a : SavedState) : svSub a a := ⟨fun _ h => h, fun _ h => h⟩

theorem svSub_trans {a b c : SavedState} (h1 : svSub a b) (h2 : svSub b c) : svSub a c :=
  ⟨fun _ h => h2.1 (h1.1 h), fun _ h => h2.2 (h1.2 h)⟩

theorem suggestedName_ne_empty (t : Target) : suggestedName t ≠ "" := by
  unfold suggestedName
  by_cases h : t.suggested = ""
  · rw [if_pos h]; decide
  · rwa [if_neg h]

theorem initMerge_mem_disk (loaded : DLState) (diskZips : List String) :
    ∀ n ∈ diskZips, n ∈ (initMerge loaded diskZips).completedFiles := by
  suffices h : ∀ (l : List String) (acc : List String),
      (∀ n ∈ l, n ∈ l.foldl (fun fs n => insertNew n fs) acc) ∧
      (∀ n ∈ acc, n ∈ l.foldl (fun fs n => insertNew n fs) acc) by
    intro n hn
    exact (h diskZips loaded.completedFiles).1 n hn
  intro l
  induction l with
  | nil => intro acc; exact ⟨fun n hn => absurd hn (List.not_mem_nil n), fun n hn => hn⟩
  | cons x xs ih =>
    intro acc
    constructor
    · intro n hn
      rcases List.mem_cons.mp hn with rfl | hn2
      · exact (ih (insertNew n acc)).2 n (mem_insertNew_self n acc)
      · exact (ih (insertNew x acc)).1 n hn2
    · intro n hn
      exact (ih (insertNew x acc)).2 n (insertNew_subset x acc hn)

theorem initMerge_mem_loaded (loaded : DLState) (diskZips : List String) :
    ∀ f ∈ loaded.completedFiles, f ∈ (initMerge loaded diskZips).completedFiles := by
  suffices h : ∀ (l acc : List String), ∀ n ∈ acc,
      n ∈ l.foldl (fun fs n => insertNew n fs) acc by
    intro f hf
    exact h diskZips loaded.completedFiles f hf
  intro l
  induction l with
  | nil => intro acc n hn; exact hn
  | cons x xs ih =>
    intro acc n hn
    exact ih (insertNew x acc) n (insertNew_subset x acc hn)

theorem mem_of_getLast?_eq {α : Type} {l : List α} {x : α} (h : l.getLast? = some x) :
    x ∈ l := by
  induction l with
  | nil => simp at h
  | cons a rest ih =>
    cases rest with
    | nil => simp_all
    | cons b rest2 =>
      rw [List.getLast?_cons_cons] at h
      exact List.mem_cons_of_mem a (ih h)

theorem mem_of_head?_eq {α : Type} {l : List α} {x : α} (h : l.head? = some x) : x ∈ l := by
  cases l with
  | nil => simp at h
  | cons a rest => simp at h; simp [h]

theorem mark_completed_file_mem (s : DLState) (k? : Option String) (f : String)
    (hf : f ≠ "") : f ∈ (mark_completed s k? (some f)).completedFiles := by
  unfold mark_completed
  cases k? with
  | none => simp [hf, mem_insertNew_self]
  | some k =>
    by_cases hk : k ≠ "" <;> simp [hk, hf, mem_insertNew_self]

/-! ## Supporting lemmas: one drain iteration -/

theorem processTarget_spec (resume : Bool) (t : Target) (ls : LoopSt) :
    stSub ls.st (processTarget resume t ls).2.st ∧
    (∀ sv ∈ saves (processTarget resume t ls).1,
      sv = save (processTarget resume t ls).2.st) ∧
    (saves (processTarget resume t ls).1).length
      = (completions (processTarget resume t ls).1).length ∧
    (saves (processTarget resume t ls).1).length ≤ 1 ∧
    (∀ f ∈ completions (processTarget resume t ls).1,
      f ∈ (processTarget resume t ls).2.st.completedFiles) := by
  unfold processTarget
  by_cases h1 : resume ∧ t.key ∈ ls.st.completedKeys
  · simp only [if_pos h1]
    exact ⟨stSub_refl _, by simp [saves], by simp [saves, completions],
      by simp [saves], by simp [completions]⟩
  · simp only [if_neg h1]
    by_cases h2 : t.transferOk
    · simp only [h2, not_true_eq_false, if_neg, Bool.not_eq_true, if_false]
      by_cases h3 : resume ∧ suggestedName t ∈ ls.disk
      · simp only [if_pos h3]
        refine ⟨mark_completed_stSub ls.st _ _, ?_, ?_, ?_, ?_⟩
        · intro sv hsv
          simp [saves, List.filterMap] at hsv
          simpa using hsv
        · simp [saves, completions, List.filterMap]
        · simp [saves, List.filterMap]
        · intro f hf
          simp [completions, List.filterMap] at hf
          subst hf
          exact mark_completed_file_mem ls.st _ _ (suggestedName_ne_empty t)
      · simp only [if_neg h3]
        refine ⟨mark_completed_stSub ls.st _ _, ?_, ?_, ?_, ?_⟩
        · intro sv hsv
          simp [saves, List.filterMap] at hsv
          simpa using hsv
        · simp [saves, completions, List.filterMap]
        · simp [saves, List.filterMap]
        · intro f hf
          simp [completions, List.filterMap] at hf
          subst hf
          exact mark_completed_file_mem ls.st _ _ (suggestedName_ne_empty t)
    · simp only [h2]
      refine ⟨stSub_refl _, ?_, ?_, ?_, ?_⟩ <;>
        simp [saves, completions, List.filterMap]

/-! ## Supporting lemmas: the drain loop -/

theorem saves_append (l1 l2 : List DlEvent) : saves (l1 ++ l2) = saves l1 ++ saves l2 :=
  List.filterMap_append l1 l2 _

theorem completions_append (l1 l2 : List DlEvent) :
    completions (l1 ++ l2) = completions l1 ++ completions l2 :=
  List.filterMap_append l1 l2 _

theorem saveAsValues_append (l1 l2 : List DlEvent) :
    saveAsValues (l1 ++ l2) = saveAsValues l1 ++ saveAsValues l2 :=
  List.filterMap_append l1 l2 _

theorem drain_cons (resume : Bool) (cancel : Nat → Bool) (t : Target) (rest : List Target)
    (i : Nat) (ls : LoopSt) (hc : cancel i = false) :
    drain resume cancel (t :: rest) i ls
      = ((processTarget resume t ls).1
          ++ (drain resume cancel rest (i + 1) (processTarget resume t ls).2).1,
        (drain resume cancel rest (i + 1) (processTarget resume t ls).2).2) := by
  simp [drain, hc]

theorem drain_spec (resume : Bool) (cancel : Nat → Bool) :
    ∀ (ts : List Target) (i : Nat) (ls : LoopSt),
      stSub ls.st (drain resume cancel ts i ls).2.st ∧
      (saves (drain resume cancel ts i ls).1).length
        = (completions (drain resume cancel ts i ls).1).length ∧
      (∀ sv ∈ saves (drain resume cancel ts i ls).1,
        svSub (save ls.st) sv ∧ svSub sv (save (drain resume cancel ts i ls).2.st) ∧
        sv.keys.Sorted (· ≤ ·) ∧ sv.files.Sorted (· ≤ ·)) ∧
      List.Chain' svSub (saves (drain resume cancel ts i ls).1) ∧
      (∀ f ∈ completions (drain resume cancel ts i ls).1,
        f ∈ (drain resume cancel ts i ls).2.st.completedFiles) := by
  intro ts
  induction ts with
  | nil =>
    intro i ls
    simp [drain, saves, completions, stSub_refl]
  | cons t rest ih =>
    intro i ls
    by_cases hc : cancel i
    · simp [drain, hc, saves, completions, stSub_refl]
    · obtain ⟨p1, p2, p3, p4, p5⟩ := processTarget_spec resume t ls
      obtain ⟨r1, r2, r3, r4, r5⟩ := ih (i + 1) (processTarget resume t ls).2
      rw [drain_cons resume cancel t rest i ls (by simpa using hc)]
      rw [saves_append, completions_append]
      refine ⟨stSub_trans p1 r1, ?_, ?_, ?_, ?_⟩
      · simp only [List.length_append]
        omega
      · intro sv hsv
        rcases List.mem_append.mp hsv with hmem | hmem
        · have heq := p2 sv hmem
          subst heq
          exact ⟨svSub_of_stSub p1, svSub_of_stSub r1, (save_sorted _).1, (save_sorted _).2⟩
        · obtain ⟨ha, hb, hc2, hd⟩ := r3 sv hmem
          exact ⟨svSub_trans (svSub_of_stSub p1) ha, hb, hc2, hd⟩
      · rw [List.chain'_append]
        refine ⟨?_, r4, ?_⟩
        · cases hsp : saves (processTarget resume t ls).1 with
          | nil => exact List.chain'_nil
          | cons a tail =>
            rw [hsp] at p4
            have htail : tail = [] := by
              cases tail with
              | nil => rfl
              | cons b t2 => simp at p4
            subst htail
            exact List.chain'_singleton a
        · intro x hx y hy
          have heq := p2 x (mem_of_getLast?_eq hx)
          subst heq
          exact (r3 y (mem_of_head?_eq hy)).1
      · intro f hf
        rcases List.mem_append.mp hf with hmem | hmem
        · exact r1.2 (p5 f hmem)
        · exact r5 f hmem

theorem drain_cancel_factor (resume : Bool) (cancel : Nat → Bool) :
    ∀ (ts : List Target) (i : Nat) (ls : LoopSt),
      drain resume cancel ts i ls
        = drain resume (fun _ => false) (ts.take (runLen cancel i ts.length)) i ls := by
  intro ts
  induction ts with
  | nil => intro i ls; rfl
  | cons t rest ih =>
    intro i ls
    by_cases hc : cancel i
    · simp [drain, hc, runLen, List.take]
    · have hrl : runLen cancel i (t :: rest).length
          = runLen cancel (i + 1) rest.length + 1 := by
        simp [runLen, hc]
      rw [hrl]
      rw [List.take_succ_cons]
      rw [drain_cons resume cancel t rest i ls (by simpa using hc),
        drain_cons resume (fun _ => false) t _ i ls rfl]
      rw [ih (i + 1) (processTarget resume t ls).2]

theorem click_mem_processTarget {resume : Bool} {t : Target} {ls : LoopSt} {k : String}
    (h : DlEvent.click k ∈ (processTarget resume t ls).1) :
    k = t.key ∧ ¬(resume ∧ t.key ∈ ls.st.completedKeys) := by
  unfold processTarget at h
  by_cases h1 : resume ∧ t.key ∈ ls.st.completedKeys
  · rw [if_pos h1] at h
    simp at h
  · rw [if_neg h1] at h
    refine ⟨?_, h1⟩
    by_cases h2 : t.transferOk
    · simp only [h2, Bool.not_true, if_neg, Bool.false_eq_true, not_false_eq_true,
        if_false] at h
      by_cases h3 : resume ∧ suggestedName t ∈ ls.disk
      · rw [if_pos h3] at h
        simp at h
        exact h
      · rw [if_neg h3] at h
        simp at h
        exact h
    · simp only [h2] at h
      simp at h

theorem drain_no_click_of_completed (cancel : Nat → Bool) :
    ∀ (ts : List Target) (i : Nat) (ls : LoopSt) (k : String),
      k ∈ ls.st.completedKeys →
      DlEvent.click k ∉ (drain true cancel ts i ls).1 := by
  intro ts
  induction ts with
  | nil => intro i ls k _ h; simp [drain] at h
  | cons t rest ih =>
    intro i ls k hk h
    by_cases hc : cancel i
    · simp [drain, hc] at h
    · rw [drain_cons true cancel t rest i ls (by simpa using hc)] at h
      rcases List.mem_append.mp h with hmem | hmem
      · obtain ⟨rfl, hno⟩ := click_mem_processTarget hmem
        exact hno ⟨rfl, hk⟩
      · have hgrow := (processTarget_spec true t ls).1
        exact ih (i + 1) (processTarget true t ls).2 k (hgrow.1 hk) hmem

/-! ## Supporting lemmas: acquisition -/

theorem acquire_events_ctx :
    ∀ (w : List WaitResult) (a : Nat), ∀ e ∈ (acquire w a).1,
      e = DlEvent.ctxClose ∨ e = DlEvent.ctxOpen := by
  intro w
  induction w with
  | nil => intro a e he; simp [acquire] at he
  | cons x rest ih =>
    intro a e he
    cases x with
    | found ts => simp [acquire] at he
    | timeout => simp [acquire] at he
    | errClosed =>
      by_cases ha : a < 3
      · simp only [acquire, if_pos ha] at he
        rcases List.mem_cons.mp he with he | he
        · exact Or.inl he
        · rcases List.mem_cons.mp he with he | he
          · exact Or.inr he
          · exact ih (a + 1) e he
      · simp [acquire, if_neg ha] at he
    | errOther => simp [acquire] at he

theorem acquire_counts :
    ∀ (w : List WaitResult) (a : Nat),
      ((acquire w a).1.count DlEvent.ctxOpen = (acquire w a).1.count DlEvent.ctxClose) := by
  intro w
  induction w with
  | nil => intro a; simp [acquire]
  | cons x rest ih =>
    intro a
    cases x with
    | found ts => simp [acquire]
    | timeout => simp [acquire]
    | errClosed =>
      by_cases ha : a < 3
      · simp only [acquire, if_pos ha]
        rw [List.count_cons, List.count_cons, List.count_cons, List.count_cons]
        have := ih (a + 1)
        simp only [beq_iff_eq, reduceCtorEq]
        simp
        omega
      · simp [acquire, if_neg ha]
    | errOther => simp [acquire]

theorem drain_no_ctx (resume : Bool) (cancel : Nat → Bool) :
    ∀ (ts : List Target) (i : Nat) (ls : LoopSt),
      DlEvent.ctxOpen ∉ (drain resume cancel ts i ls).1 ∧
      DlEvent.ctxClose ∉ (drain resume cancel ts i ls).1 ∧
      DlEvent.evEnd ∉ (drain resume cancel ts i ls).1 := by
  intro ts
  induction ts with
  | nil => intro i ls; simp [drain]
  | cons t rest ih =>
    intro i ls
    by_cases hc : cancel i
    · simp [drain, hc]
    · rw [drain_cons resume cancel t rest i ls (by simpa using hc)]
      obtain ⟨ih1, ih2, ih3⟩ := ih (i + 1) (processTarget resume t ls).2
      have hpt : DlEvent.ctxOpen ∉ (processTarget resume t ls).1 ∧
          DlEvent.ctxClose ∉ (processTarget resume t ls).1 ∧
          DlEvent.evEnd ∉ (processTarget resume t ls).1 := by
        unfold processTarget
        by_cases h1 : resume ∧ t.key ∈ ls.st.completedKeys
        · simp [if_pos h1]
        · rw [if_neg h1]
          by_cases h2 : t.transferOk
          · simp only [h2, Bool.not_true, if_neg, Bool.false_eq_true, not_false_eq_true,
              if_false]
            by_cases h3 : resume ∧ suggestedName t ∈ ls.disk
            · simp [if_pos h3]
            · simp [if_neg h3]
          · simp [h2]
      refine ⟨?_, ?_, ?_⟩ <;> rw [List.mem_append] <;> push_neg
      · exact ⟨hpt.1, ih1⟩
      · exact ⟨hpt.2.1, ih2⟩
      · exact ⟨hpt.2.2, ih3⟩

theorem extract_archive_of_success {a : Archive} (h : isExtSuccess a = true) :
    extract_archive a = some a.entrySizes.sum := by
  unfold extract_archive
  unfold isExtSuccess at h
  rw [if_pos]
  simpa using h

theorem extract_archive_of_failure {a : Archive} (h : isExtSuccess a = false) :
    extract_archive a = none := by
  unfold extract_archive
  unfold isExtSuccess at h
  rw [if_neg]
  simpa using h

theorem calc_size_of_success {a : Archive} (h : isExtSuccess a = true) :
    calc_archive_size a = a.entrySizes.sum := by
  unfold calc_archive_size
  unfold isExtSuccess at h
  rw [if_pos]
  simp at h
  exact h.1

theorem sumSucc_cons_success {a : Archive} (rest : List Archive)
    (h : isExtSuccess a = true) :
    sumSucc (a :: rest) = a.entrySizes.sum + sumSucc rest := by
  simp [sumSucc, List.filter_cons, h]

theorem sumSucc_cons_failure {a : Archive} (rest : List Archive)
    (h : isExtSuccess a = false) :
    sumSucc (a :: rest) = sumSucc rest := by
  simp [sumSucc, List.filter_cons, h]

theorem extractLoop_done_spec :
    ∀ (l : List Archive) (total d : Nat),
      List.Chain' (· ≤ ·) (doneValues (extractLoop total l d)) ∧
      (∀ v ∈ doneValues (extractLoop total l d), d ≤ v) ∧
      (doneValues (extractLoop total l d)).getLast?
        = (if l.any isExtSuccess then some (d + sumSucc l) else none) := by
  intro l
  induction l with
  | nil =>
    intro total d
    simp [extractLoop, doneValues, sumSucc]
  | cons a rest ih =>
    intro total d
    by_cases hs : isExtSuccess a
    · have hx := extract_archive_of_success hs
      have hloop : extractLoop total (a :: rest) d
          = ExtEvent.fileProgress a.name (d + a.entrySizes.sum) total ::
            ExtEvent.fileComplete a.name ::
            extractLoop total rest (d + a.entrySizes.sum) := by
        simp [extractLoop, hx]
      have hdv : doneValues (extractLoop total (a :: rest) d)
          = (d + a.entrySizes.sum) :: doneValues (extractLoop total rest (d + a.entrySizes.sum)) := by
        rw [hloop]; simp [doneValues]
      obtain ⟨ih1, ih2, ih3⟩ := ih total (d + a.entrySizes.sum)
      rw [hdv]
      refine ⟨?_, ?_, ?_⟩
      · rw [List.chain'_cons']
        exact ⟨fun y hy => ih2 y (mem_of_head?_eq hy), ih1⟩
      · intro v hv
        rcases List.mem_cons.mp hv with rfl | hv2
        · omega
        · have := ih2 v hv2
          omega
      · by_cases hrest : rest.any isExtSuccess
        · rw [if_pos (by simp [hrest])]
          rw [if_pos hrest] at ih3
          have hmem : (d + a.entrySizes.sum + sumSucc rest)
              ∈ (doneValues (extractLoop total rest (d + a.entrySizes.sum))).getLast? := by
            rw [ih3]; rfl
          have := List.mem_getLast?_cons
            (y := d + a.entrySizes.sum) hmem
          rw [sumSucc_cons_success rest hs]
          rw [show d + (a.entrySizes.sum + sumSucc rest)
              = d + a.entrySizes.sum + sumSucc rest by omega]
          exact this
        · rw [if_pos (by simp [hs])]
          rw [if_neg hrest] at ih3
          have hnil : doneValues (extractLoop total rest (d + a.entrySizes.sum)) = [] := by
            rwa [List.getLast?_eq_none_iff] at ih3
          rw [hnil]
          rw [sumSucc_cons_success rest hs]
          have hz : sumSucc rest = 0 := by
            unfold sumSucc
            have : rest.filter isExtSuccess = [] := by
              rw [List.filter_eq_nil_iff]
              intro x hx hxx
              exact hrest (List.any_eq_true.mpr ⟨x, hx, hxx⟩)
            rw [this]; rfl
          rw [hz]
          simp
    · have hx := extract_archive_of_failure (by simpa using hs)
      have hloop : extractLoop total (a :: rest) d
          = ExtEvent.fileError a.name :: extractLoop total rest d := by
        simp [extractLoop, hx]
      have hdv : doneValues (extractLoop total (a :: rest) d)
          = doneValues (extractLoop total rest d) := by
        rw [hloop]; simp [doneValues]
      obtain ⟨ih1, ih2, ih3⟩ := ih total d
      rw [hdv]
      refine ⟨ih1, ih2, ?_⟩
      rw [ih3]
      have hany : (a :: rest).any isExtSuccess = rest.any isExtSuccess := by
        simp [List.any_cons, (by simpa using hs : isExtSuccess a = false)]
      rw [hany, sumSucc_cons_failure rest (by simpa using hs)]

/-! ## Claim theorems: photo organization -/

theorem parseExifDate_empty : parseExifDate "" = none := rfl

/-- Claim C5: timestamp resolution priority.  Embedded capture metadata wins
over any sidecar; with no embedded metadata a sidecar date is used; with
neither, the filesystem modification time is used.  Within the embedded
metadata, `DateTimeOriginal` is preferred over `DateTimeDigitized` over
`DateTime`, parsed in the fixed pattern `YYYY:MM:DD HH:MM:SS`. -/
theorem claim_C5 :
    (∀ (fs : List (String × Json)) (p : Photo) (off : Int) (d : PDateTime),
      get_exif_date p.tags = some d → best_date fs p off = d) ∧
    (∀ (fs : List (String × Json)) (p : Photo) (off : Int) (d : PDateTime),
      get_exif_date p.tags = none → find_sidecar_date fs p.name off = some d →
      best_date fs p off = d) ∧
    (∀ (fs : List (String × Json)) (p : Photo) (off : Int),
      get_exif_date p.tags = none → find_sidecar_date fs p.name off = none →
      best_date fs p off = fromTimestampT p.mtime off) ∧
    (∀ (tags : List (String × String)) (v : String) (d : PDateTime),
      alookup tags "DateTimeOriginal" = some v → parseExifDate v = some d →
      get_exif_date tags = some d) ∧
    (∀ (tags : List (String × String)) (v : String) (d : PDateTime),
      alookup tags "DateTimeOriginal" = none →
      alookup tags "DateTimeDigitized" = some v → parseExifDate v = some d →
      get_exif_date tags = some d) ∧
    (∀ (tags : List (String × String)) (v : String) (d : PDateTime),
      alookup tags "DateTimeOriginal" = none →
      alookup tags "DateTimeDigitized" = none →
      alookup tags "DateTime" = some v → parseExifDate v = some d →
      get_exif_date tags = some d) ∧
    parseExifDate "2021:03:04 05:06:07" = some ⟨2021, 3, 4, 5, 6, 7⟩ := by
  refine ⟨?_, ?_, ?_, ?_, ?_, ?_, by decide⟩
  · intro fs p off d h
    simp [best_date, h]
  · intro fs p off d h1 h2
    simp [best_date, h1, h2]
  · intro fs p off h1 h2
    simp [best_date, h1, h2]
  · intro tags v d h1 h2
    have hv : v ≠ "" := by
      intro hveq
      rw [hveq, parseExifDate_empty] at h2
      cases h2
    simp [get_exif_date, exifKeys, exifDateFromKeys, h1, hv, h2]
  · intro tags v d h1 h2 h3
    have hv : v ≠ "" := by
      intro hveq
      rw [hveq, parseExifDate_empty] at h3
      cases h3
    simp [get_exif_date, exifKeys, exifDateFromKeys, h1, h2, hv, h3]
  · intro tags v d h1 h2 h3 h4
    have hv : v ≠ "" := by
      intro hveq
      rw [hveq, parseExifDate_empty] at h4
      cases h4
    simp [get_exif_date, exifKeys, exifDateFromKeys, h1, h2, h3, hv, h4]

/-- Witness for claim C5 at concrete inputs: a file with valid embedded
metadata ignores a sidecar carrying a different timestamp; a file with
neither uses its modification time. -/
theorem claim_C5_witness :
    (get_exif_date [("DateTimeOriginal", "2020:05:06 07:08:09")]
        = some ⟨2020, 5, 6, 7, 8, 9⟩) ∧
    best_date
      [("photo.jpg.json", Json.obj [("photoTakenTime", Json.obj [("timestamp", Json.str "1609459200")])])]
      ⟨"photo.jpg", [("DateTimeOriginal", "2020:05:06 07:08:09")], 0⟩ 0
      = ⟨2020, 5, 6, 7, 8, 9⟩ ∧
    best_date [] ⟨"photo.jpg", [], 86400⟩ 0 = ⟨1970, 1, 2, 0, 0, 0⟩ := by
  refine ⟨by decide, ?_, ?_⟩
  · exact claim_C5.1
      [("photo.jpg.json", Json.obj [("photoTakenTime", Json.obj [("timestamp", Json.str "1609459200")])])]
      ⟨"photo.jpg", [("DateTimeOriginal", "2020:05:06 07:08:09")], 0⟩ 0
      ⟨2020, 5, 6, 7, 8, 9⟩ (by decide)
  · exact claim_C5.2.2.1 [] ⟨"photo.jpg", [], 86400⟩ 0 (by decide) (by decide)

/-- Claim C10: a sidecar whose resolved timestamp is the integer zero is
treated as having no date at all (`if ts:` is false at 0), so resolution
falls through to the modification time when there is no embedded
metadata. -/
theorem claim_C10 :
    (∀ (j : Json) (off : Int), extractTs j = some 0 → candidateDate j off = none) ∧
    (∀ (fs : List (String × Json)) (p : Photo) (off : Int),
      get_exif_date p.tags = none →
      (∀ j, alookup fs (p.name ++ ".json") = some j → extractTs j = some 0) →
      (∀ j, alookup fs (fileStem p.name ++ ".json") = some j → extractTs j = some 0) →
      find_sidecar_date fs p.name off = none ∧
      best_date fs p off = fromTimestampT p.mtime off) ∧
    candidateDate (Json.obj [("photoTakenTime", Json.obj [("timestamp", Json.str "0")])]) 0
      = none := by
  have hzero : ∀ (j : Json) (off : Int), extractTs j = some 0 → candidateDate j off = none := by
    intro j off h
    simp [candidateDate, h]
  refine ⟨hzero, ?_, by decide⟩
  intro fs p off hexif h1 h2
  have hside : find_sidecar_date fs p.name off = none := by
    unfold find_sidecar_date
    have hb1 : (alookup fs (p.name ++ ".json")).bind (fun j => candidateDate j off) = none := by
      cases ha : alookup fs (p.name ++ ".json") with
      | none => rfl
      | some j => simp [hzero j off (h1 j ha)]
    have hb2 : (alookup fs (fileStem p.name ++ ".json")).bind (fun j => candidateDate j off)
        = none := by
      cases ha : alookup fs (fileStem p.name ++ ".json") with
      | none => rfl
      | some j => simp [hzero j off (h2 j ha)]
    rw [hb1, hb2]
  exact ⟨hside, by simp [best_date, hexif, hside]⟩

/-- Witness for claim C10: a sidecar `photoTakenTime.timestamp` of "0" next
to `photo.jpg` yields no sidecar date, and the file is bucketed by its
modification time (1970-01-02 here). -/
theorem claim_C10_witness :
    find_sidecar_date
        [("photo.jpg.json", Json.obj [("photoTakenTime", Json.obj [("timestamp", Json.str "0")])])]
        "photo.jpg" 0 = none ∧
    best_date
        [("photo.jpg.json", Json.obj [("photoTakenTime", Json.obj [("timestamp", Json.str "0")])])]
        ⟨"photo.jpg", [], 86400⟩ 0 = ⟨1970, 1, 2, 0, 0, 0⟩ := by
  have h := claim_C10.2.1
    [("photo.jpg.json", Json.obj [("photoTakenTime", Json.obj [("timestamp", Json.str "0")])])]
    ⟨"photo.jpg", [], 86400⟩ 0 (by decide)
    (by
      intro j hj
      have he : alookup
          [("photo.jpg.json", Json.obj [("photoTakenTime", Json.obj [("timestamp", Json.str "0")])])]
          ((Photo.mk "photo.jpg" [] 86400).name ++ ".json")
          = some (Json.obj [("photoTakenTime", Json.obj [("timestamp", Json.str "0")])]) := rfl
      have hj3 := Option.some.inj (he.symm.trans hj)
      rw [← hj3]
      decide)
    (by
      intro j hj
      have he : alookup
          [("photo.jpg.json", Json.obj [("photoTakenTime", Json.obj [("timestamp", Json.str "0")])])]
          (fileStem (Photo.mk "photo.jpg" [] 86400).name ++ ".json")
          = (none : Option Json) := rfl
      exact Option.noConfusion (he.symm.trans hj))
  exact ⟨h.1, h.2⟩

/-- Claim C7: collision policy.  The returned destination name never exists
already; when the plain name is taken, the result is `stem-k.suffix` for the
least free `k`, scanning first-fit from 2 upward; two then three files
colliding on `IMG.jpg` land as `IMG-2.jpg` and `IMG-3.jpg`. -/
theorem claim_C7 :
    (∀ (existing : List String) (filename : String),
      ensure_unique_path existing filename ∉ existing) ∧
    (∀ (existing : List String) (filename : String), filename ∈ existing →
      ∃ k, 2 ≤ k ∧
        ensure_unique_path existing filename
          = candidateName (fileStem filename) (fileSuffix filename) k ∧
        candidateName (fileStem filename) (fileSuffix filename) k ∉ existing ∧
        ∀ m, 2 ≤ m → m < k →
          candidateName (fileStem filename) (fileSuffix filename) m ∈ existing) ∧
    ensure_unique_path [] "IMG.jpg" = "IMG.jpg" ∧
    ensure_unique_path ["IMG.jpg"] "IMG.jpg" = "IMG-2.jpg" ∧
    ensure_unique_path ["IMG.jpg", "IMG-2.jpg"] "IMG.jpg" = "IMG-3.jpg" := by
  refine ⟨ensure_unique_path_not_mem, ?_, by decide, by decide, by decide⟩
  intro existing filename h
  obtain ⟨k, hk2, heq, hfree, hfit⟩ := ensure_unique_path_first_fit existing filename h
  exact ⟨k, hk2, heq, hfree, hfit⟩

/-- Witness for claim C7's conditional part at a concrete input: with
`IMG.jpg` and `IMG-2.jpg` taken, the first-fit index is 3. -/
theorem claim_C7_witness :
    "IMG.jpg" ∈ ["IMG.jpg", "IMG-2.jpg"] ∧
    ∃ k, 2 ≤ k ∧
      ensure_unique_path ["IMG.jpg", "IMG-2.jpg"] "IMG.jpg"
        = candidateName (fileStem "IMG.jpg") (fileSuffix "IMG.jpg") k ∧
      candidateName (fileStem "IMG.jpg") (fileSuffix "IMG.jpg") k ∉ ["IMG.jpg", "IMG-2.jpg"] ∧
      ∀ m, 2 ≤ m → m < k →
        candidateName (fileStem "IMG.jpg") (fileSuffix "IMG.jpg") m ∈ ["IMG.jpg", "IMG-2.jpg"] :=
  ⟨by decide, claim_C7.2.1 ["IMG.jpg", "IMG-2.jpg"] "IMG.jpg" (by decide)⟩

/-- Counterexample to claim C6 as stated: for an array-shaped sidecar the
source consults only the first element's `photoTakenTime.timestamp`.  A
nested `creationTime` (or a `seconds` sub-field) inside an array yields no
timestamp, while the very same object at top level does. -/
theorem claim_C6_counterexample :
    extractTs (Json.arr [Json.obj [("creationTime", Json.obj [("timestamp", Json.str "1609459200")])]])
      = none ∧
    extractTs (Json.obj [("creationTime", Json.obj [("timestamp", Json.str "1609459200")])])
      = some 1609459200 ∧
    extractTs (Json.arr [Json.obj [("photoTakenTime", Json.obj [("seconds", Json.str "1609459200")])]])
      = none ∧
    extractTs (Json.obj [("photoTakenTime", Json.obj [("seconds", Json.str "1609459200")])])
      = some 1609459200 := by
  refine ⟨rfl, rfl, rfl, rfl⟩

/-- Claim C6 (amended): the sidecar lookup checks `<name><ext>.json` then
`<name>.json`.  An object sidecar is read through `photoTakenTime` else
`creationTime`, taking `timestamp` when truthy else `seconds`.  An
array-shaped sidecar whose first element is an object is consulted only for
that element's `photoTakenTime.timestamp` — `creationTime` and `seconds`
are not read there.  The value is interpreted as Unix epoch seconds in local
time, and the concrete scenario places `photo.jpg` at
`2021/01/01/photo.jpg` under a UTC-equivalent local zone. -/
theorem claim_C6 :
    (∀ (fs : List (String × Json)) (name : String) (off : Int) (j : Json) (d : PDateTime),
      alookup fs (name ++ ".json") = some j → candidateDate j off = some d →
      find_sidecar_date fs name off = some d) ∧
    (∀ (fs : List (String × Json)) (name : String) (off : Int),
      (alookup fs (name ++ ".json")).bind (fun j => candidateDate j off) = none →
      find_sidecar_date fs name off
        = (alookup fs (fileStem name ++ ".json")).bind (fun j => candidateDate j off)) ∧
    (∀ (flds pt : List (String × Json)),
      alookup flds "photoTakenTime" = some (Json.obj pt) →
      extractTs (Json.obj flds) = tsFromTimeObj pt) ∧
    (∀ (flds ct : List (String × Json)),
      alookup flds "photoTakenTime" = none →
      alookup flds "creationTime" = some (Json.obj ct) →
      extractTs (Json.obj flds) = tsFromTimeObj ct) ∧
    (∀ (pt : List (String × Json)) (v : Json),
      alookup pt "timestamp" = some v → jsonTruthy v = true →
      tsFromTimeObj pt = jsonToInt v) ∧
    (∀ (pt : List (String × Json)),
      alookup pt "timestamp" = none →
      tsFromTimeObj pt = (alookup pt "seconds").bind jsonToInt) ∧
    (∀ (f0 pt : List (String × Json)) (rest : List Json) (v : Json),
      alookup f0 "photoTakenTime" = some (Json.obj pt) →
      alookup pt "timestamp" = some v →
      extractTs (Json.arr (Json.obj f0 :: rest)) = jsonToInt v) ∧
    (∀ (f0 : List (String × Json)) (rest : List Json),
      alookup f0 "photoTakenTime" = none →
      extractTs (Json.arr (Json.obj f0 :: rest)) = none) ∧
    (∀ (j : Json) (ts off : Int),
      extractTs j = some ts → ts ≠ 0 → candidateDate j off = fromTimestampOpt ts off) ∧
    move_dest [] [("photo.jpg.json",
        Json.obj [("photoTakenTime", Json.obj [("timestamp", Json.str "1609459200")])])]
      ⟨"photo.jpg", [], 0⟩ 0 = "2021/01/01/photo.jpg" := by
  refine ⟨?_, ?_, ?_, ?_, ?_, ?_, ?_, ?_, ?_, by decide⟩
  · intro fs name off j d h1 h2
    simp [find_sidecar_date, h1, h2]
  · intro fs name off h
    simp [find_sidecar_date, h]
  · intro flds pt h
    simp [extractTs, h]
  · intro flds ct h1 h2
    simp [extractTs, h1, h2]
  · intro pt v h1 h2
    simp [tsFromTimeObj, h1, h2]
  · intro pt h
    cases hs : alookup pt "seconds" <;> simp [tsFromTimeObj, h, hs]
  · intro f0 pt rest v h1 h2
    simp [extractTs, h1, h2]
  · intro f0 rest h
    simp [extractTs, h]
  · intro j ts off h1 h2
    simp [candidateDate, h1, h2]

/-- Witness for claim C6 at concrete inputs: the first candidate path wins,
and an object sidecar falls back from `photoTakenTime` to `creationTime`. -/
theorem claim_C6_witness :
    find_sidecar_date
        [("photo.jpg.json", Json.obj [("photoTakenTime", Json.obj [("timestamp", Json.str "1609459200")])])]
        "photo.jpg" 0 = some ⟨2021, 1, 1, 0, 0, 0⟩ ∧
    extractTs (Json.obj [("creationTime", Json.obj [("seconds", Json.num 1609459200)])])
      = some 1609459200 := by
  constructor
  · refine claim_C6.1
      [("photo.jpg.json", Json.obj [("photoTakenTime", Json.obj [("timestamp", Json.str "1609459200")])])]
      "photo.jpg" 0
      (Json.obj [("photoTakenTime", Json.obj [("timestamp", Json.str "1609459200")])])
      ⟨2021, 1, 1, 0, 0, 0⟩ rfl (by decide)
  · have h1 : alookup [("creationTime", Json.obj [("seconds", Json.num 1609459200)])]
        "photoTakenTime" = none := rfl
    have h2 : alookup [("creationTime", Json.obj [("seconds", Json.num 1609459200)])]
        "creationTime" = some (Json.obj [("seconds", Json.num 1609459200)]) := rfl
    rw [claim_C6.2.2.2.1 _ _ h1 h2]
    rfl

/-! ## Claim theorems: extraction -/

/-- Claim C9: extraction byte progress is monotonically non-decreasing over
the event sequence, and the final reported value is the sum of the
precomputed uncompressed sizes of exactly the archives that did not error
(unreadable archives having precomputed size zero and always erroring). -/
theorem claim_C9 (archives order : List Archive) (h : order.Perm archives) :
    List.Chain' (· ≤ ·) (doneValues (extract_all archives order)) ∧
    (doneValues (extract_all archives order)).getLast?
      = (if order.any isExtSuccess
         then some (((archives.filter isExtSuccess).map calc_archive_size).sum)
         else none) := by
  by_cases hne : archives = []
  · subst hne
    have hord : order = [] := List.perm_nil.mp h
    subst hord
    simp [extract_all, doneValues]
  · have hemp : archives.isEmpty = false := by
      cases archives with
      | nil => exact absurd rfl hne
      | cons a rest => rfl
    obtain ⟨c1, _, c3⟩ :=
      extractLoop_done_spec order ((archives.map calc_archive_size).sum) 0
    have hdv : doneValues (extract_all archives order)
        = doneValues (extractLoop ((archives.map calc_archive_size).sum) order 0) := by
      simp [extract_all, hemp, doneValues, List.filterMap_append]
    rw [hdv]
    refine ⟨c1, ?_⟩
    rw [c3]
    have hsum : sumSucc order
        = ((archives.filter isExtSuccess).map calc_archive_size).sum := by
      unfold sumSucc
      have hmap : (order.filter isExtSuccess).map (fun a => a.entrySizes.sum)
          = (order.filter isExtSuccess).map calc_archive_size := by
        apply List.map_congr_left
        intro x hx
        exact (calc_size_of_success (List.of_mem_filter hx)).symm
      rw [hmap]
      exact List.Perm.sum_eq ((h.filter isExtSuccess).map calc_archive_size)
    rw [hsum]
    simp

/-- Witness for claim C9 at a concrete input: two readable archives (one of
which fails extraction) and one unreadable archive. -/
theorem claim_C9_witness :
    ([(Archive.mk "a.zip" true [5, 7] true), (Archive.mk "b.zip" true [11] false),
        (Archive.mk "c.zip" false [3] true)].Perm
      [(Archive.mk "a.zip" true [5, 7] true), (Archive.mk "b.zip" true [11] false),
        (Archive.mk "c.zip" false [3] true)]) ∧
    List.Chain' (· ≤ ·) (doneValues (extract_all
      [(Archive.mk "a.zip" true [5, 7] true), (Archive.mk "b.zip" true [11] false),
        (Archive.mk "c.zip" false [3] true)]
      [(Archive.mk "a.zip" true [5, 7] true), (Archive.mk "b.zip" true [11] false),
        (Archive.mk "c.zip" false [3] true)])) ∧
    (doneValues (extract_all
      [(Archive.mk "a.zip" true [5, 7] true), (Archive.mk "b.zip" true [11] false),
        (Archive.mk "c.zip" false [3] true)]
      [(Archive.mk "a.zip" true [5, 7] true), (Archive.mk "b.zip" true [11] false),
        (Archive.mk "c.zip" false [3] true)])).getLast?
      = (if ([(Archive.mk "a.zip" true [5, 7] true), (Archive.mk "b.zip" true [11] false),
          (Archive.mk "c.zip" false [3] true)].any isExtSuccess)
         then some ((([(Archive.mk "a.zip" true [5, 7] true),
            (Archive.mk "b.zip" true [11] false),
            (Archive.mk "c.zip" false [3] true)].filter isExtSuccess).map
              calc_archive_size).sum)
         else none) := by
  refine ⟨List.Perm.refl _, ?_, ?_⟩
  · exact (claim_C9 _ _ (List.Perm.refl _)).1
  · exact (claim_C9 _ _ (List.Perm.refl _)).2

/-! ## Claim theorems: download phase events and context lifecycle -/

theorem saves_acquire (w : List WaitResult) (a : Nat) : saves (acquire w a).1 = [] := by
  rw [saves, List.filterMap_eq_nil_iff]
  intro e he
  rcases acquire_events_ctx w a e he with rfl | rfl <;> rfl

theorem completions_acquire (w : List WaitResult) (a : Nat) :
    completions (acquire w a).1 = [] := by
  rw [completions, List.filterMap_eq_nil_iff]
  intro e he
  rcases acquire_events_ctx w a e he with rfl | rfl <;> rfl

/-- Counterexample to claim C2 as stated: a download session that finds zero
targets emits the start event and returns cleanly, but emits no end event
(the zero-target early return closes the context and returns before the
terminal event is reached). -/
theorem claim_C2_counterexample :
    DlEvent.evStart 0 0
      ∈ (download_all ⟨⟨[], []⟩, [], [WaitResult.timeout], true, fun _ => false⟩).1 ∧
    DlEvent.evEnd
      ∉ (download_all ⟨⟨[], []⟩, [], [WaitResult.timeout], true, fun _ => false⟩).1 ∧
    (download_all ⟨⟨[], []⟩, [], [WaitResult.timeout], true, fun _ => false⟩).2 = true := by
  decide

/-- Claim C2 (amended): an empty extraction batch and an empty organize
batch each emit exactly the start/end event pair and no error; a download
session with zero discovered targets emits the start event, no error event,
closes the context as its last action and returns normally — but omits the
end event. -/
theorem claim_C2 :
    (∀ order : List Archive, extract_all [] order = [ExtEvent.evStart 0, ExtEvent.evEnd]) ∧
    (∀ items : List OrgItem, items.filter (fun it => isImageFile it.photo.name) = [] →
      organize_photos items = [OrgEvent.evStart 0, OrgEvent.evEnd]) ∧
    (∀ (sc : DlScenario) (aevs : List DlEvent),
      acquire sc.waits 1 = (aevs, AcqResult.ok []) →
      (download_all sc).2 = true ∧
      DlEvent.evStart 0 (initMerge sc.loaded sc.diskZips).completedKeys.length
        ∈ (download_all sc).1 ∧
      (∀ k, DlEvent.evError k ∉ (download_all sc).1) ∧
      DlEvent.evEnd ∉ (download_all sc).1 ∧
      (download_all sc).1
        = (DlEvent.stateSave (save (initMerge sc.loaded sc.diskZips)) :: DlEvent.ctxOpen ::
            aevs ++ [DlEvent.evStart 0 (initMerge sc.loaded sc.diskZips).completedKeys.length])
          ++ [DlEvent.ctxClose]) := by
  refine ⟨fun order => rfl, ?_, ?_⟩
  · intro items hfil
    simp [organize_photos, hfil]
  · intro sc aevs hacq
    have haevs : aevs = (acquire sc.waits 1).1 := by rw [hacq]
    have hctx : ∀ e ∈ aevs, e = DlEvent.ctxClose ∨ e = DlEvent.ctxOpen := by
      rw [haevs]; exact acquire_events_ctx sc.waits 1
    have hdl : download_all sc
        = (DlEvent.stateSave (save (initMerge sc.loaded sc.diskZips)) :: DlEvent.ctxOpen ::
            aevs ++ [DlEvent.evStart 0 (initMerge sc.loaded sc.diskZips).completedKeys.length,
              DlEvent.ctxClose],
          true) := by
      simp only [download_all, hacq]
      rfl
    rw [hdl]
    refine ⟨rfl, by simp, ?_, ?_, by simp⟩
    · intro k hk
      rcases List.mem_cons.mp hk with h | hk
      · simp at h
      rcases List.mem_cons.mp hk with h | hk
      · simp at h
      rcases List.mem_append.mp hk with h | h
      · rcases hctx _ h with h2 | h2 <;> simp at h2
      · rcases List.mem_cons.mp h with h2 | h2
        · simp at h2
        · rcases List.mem_cons.mp h2 with h3 | h3 <;> simp at h3
    · intro hk
      rcases List.mem_cons.mp hk with h | hk
      · simp at h
      rcases List.mem_cons.mp hk with h | hk
      · simp at h
      rcases List.mem_append.mp hk with h | h
      · rcases hctx _ h with h2 | h2 <;> simp at h2
      · rcases List.mem_cons.mp h with h2 | h2
        · simp at h2
        · rcases List.mem_cons.mp h2 with h3 | h3 <;> simp at h3

/-- Witness for claim C2 at concrete inputs: the empty extraction batch, the
empty organize batch, and a download session whose discovery wait times out
with zero targets. -/
theorem claim_C2_witness :
    extract_all [] [] = [ExtEvent.evStart 0, ExtEvent.evEnd] ∧
    organize_photos [] = [OrgEvent.evStart 0, OrgEvent.evEnd] ∧
    acquire [WaitResult.timeout] 1 = ([], AcqResult.ok []) ∧
    (download_all ⟨⟨[], []⟩, [], [WaitResult.timeout], true, fun _ => false⟩).2 = true ∧
    DlEvent.evEnd
      ∉ (download_all ⟨⟨[], []⟩, [], [WaitResult.timeout], true, fun _ => false⟩).1 := by
  have h := claim_C2
  refine ⟨h.1 [], h.2.1 [] rfl, rfl, ?_, ?_⟩
  · exact (h.2.2 ⟨⟨[], []⟩, [], [WaitResult.timeout], true, fun _ => false⟩ [] rfl).1
  · exact (h.2.2 ⟨⟨[], []⟩, [], [WaitResult.timeout], true, fun _ => false⟩ [] rfl).2.2.2.1

/-- Counterexample to claim C3 as stated: exhausting the context-acquisition
attempt budget raises with three contexts opened and only two closed — the
context live at the fatal raise is leaked. -/
theorem claim_C3_counterexample :
    (download_all ⟨⟨[], []⟩, [],
        [WaitResult.errClosed, WaitResult.errClosed, WaitResult.errClosed], true,
        fun _ => false⟩).2 = false ∧
    (download_all ⟨⟨[], []⟩, [],
        [WaitResult.errClosed, WaitResult.errClosed, WaitResult.errClosed], true,
        fun _ => false⟩).1.count DlEvent.ctxOpen = 3 ∧
    (download_all ⟨⟨[], []⟩, [],
        [WaitResult.errClosed, WaitResult.errClosed, WaitResult.errClosed], true,
        fun _ => false⟩).1.count DlEvent.ctxClose = 2 := by
  decide

/-- Claim C3 (amended): on every normally-returning exit path (zero targets,
cancellation, drain completion) every opened browser context is closed —
open and close events balance; on the raising exit paths (attempt budget
exhaustion or a non-restartable wait error) exactly one context, the one
live at the raise, is never closed. -/
theorem claim_C3 (sc : DlScenario) :
    ((download_all sc).2 = true →
      (download_all sc).1.count DlEvent.ctxOpen
        = (download_all sc).1.count DlEvent.ctxClose) ∧
    ((download_all sc).2 = false →
      (download_all sc).1.count DlEvent.ctxOpen
        = (download_all sc).1.count DlEvent.ctxClose + 1) := by
  have hacqc := acquire_counts sc.waits 1
  rcases hpair : acquire sc.waits 1 with ⟨aevs, r⟩
  rw [hpair] at hacqc
  simp only at hacqc
  cases r with
  | raised =>
    have hdl : download_all sc
        = (DlEvent.stateSave (save (initMerge sc.loaded sc.diskZips)) :: DlEvent.ctxOpen ::
            aevs, false) := by
      simp only [download_all, hpair]
    rw [hdl]
    constructor
    · intro h; cases h
    · intro _
      simp only [List.count_cons]
      simp
      omega
  | ok targets =>
    by_cases ht : targets.isEmpty
    · have hdl : download_all sc
          = (DlEvent.stateSave (save (initMerge sc.loaded sc.diskZips)) :: DlEvent.ctxOpen ::
              aevs ++ [DlEvent.evStart targets.length
                  (initMerge sc.loaded sc.diskZips).completedKeys.length,
                DlEvent.ctxClose],
            true) := by
        simp only [download_all, hpair, ht, if_pos]
      rw [hdl]
      constructor
      · intro _
        simp only [List.count_cons, List.count_append, List.count_cons, List.count_nil]
        simp
        omega
      · intro h; cases h
    · have hdl : download_all sc
          = (DlEvent.stateSave (save (initMerge sc.loaded sc.diskZips)) :: DlEvent.ctxOpen ::
              aevs ++ [DlEvent.evStart targets.length
                  (initMerge sc.loaded sc.diskZips).completedKeys.length]
              ++ (drain sc.resume sc.cancel targets 0
                  ⟨initMerge sc.loaded sc.diskZips, sc.diskZips, 0⟩).1
              ++ [DlEvent.ctxClose, DlEvent.evEnd],
            true) := by
        simp only [download_all, hpair, ht, if_neg, Bool.false_eq_true, not_false_eq_true]
      rw [hdl]
      obtain ⟨hno, hnc, _⟩ := drain_no_ctx sc.resume sc.cancel targets 0
        ⟨initMerge sc.loaded sc.diskZips, sc.diskZips, 0⟩
      have hzo := List.count_eq_zero.mpr hno
      have hzc := List.count_eq_zero.mpr hnc
      constructor
      · intro _
        simp only [List.count_cons, List.count_append, List.count_cons, List.count_nil]
        simp
        omega
      · intro h; cases h

/-- Witness for claim C3 at concrete inputs: one normally-returning session
(balanced context events) and one raising session (one unclosed context). -/
theorem claim_C3_witness :
    (download_all ⟨⟨[], []⟩, [], [WaitResult.timeout], true, fun _ => false⟩).2 = true ∧
    (download_all ⟨⟨[], []⟩, [], [WaitResult.timeout], true, fun _ => false⟩).1.count
        DlEvent.ctxOpen
      = (download_all ⟨⟨[], []⟩, [], [WaitResult.timeout], true, fun _ => false⟩).1.count
        DlEvent.ctxClose ∧
    (download_all ⟨⟨[], []⟩, [], [WaitResult.errOther], true, fun _ => false⟩).2 = false ∧
    (download_all ⟨⟨[], []⟩, [], [WaitResult.errOther], true, fun _ => false⟩).1.count
        DlEvent.ctxOpen
      = (download_all ⟨⟨[], []⟩, [], [WaitResult.errOther], true, fun _ => false⟩).1.count
        DlEvent.ctxClose + 1 := by
  refine ⟨by decide, ?_, by decide, ?_⟩
  · exact (claim_C3 ⟨⟨[], []⟩, [], [WaitResult.timeout], true, fun _ => false⟩).1 (by decide)
  · exact (claim_C3 ⟨⟨[], []⟩, [], [WaitResult.errOther], true, fun _ => false⟩).2 (by decide)

theorem processTarget_completion_save (resume : Bool) (t : Target) (ls : LoopSt) :
    ∀ f ∈ completions (processTarget resume t ls).1,
      ∃ sv ∈ saves (processTarget resume t ls).1, f ∈ sv.files := by
  unfold processTarget
  by_cases h1 : resume ∧ t.key ∈ ls.st.completedKeys
  · simp [if_pos h1, completions]
  · rw [if_neg h1]
    by_cases h2 : t.transferOk
    · simp only [h2, Bool.not_true, if_neg, Bool.false_eq_true, not_false_eq_true, if_false]
      by_cases h3 : resume ∧ suggestedName t ∈ ls.disk
      · rw [if_pos h3]
        intro f hf
        simp [completions, List.filterMap] at hf
        subst hf
        refine ⟨save (mark_completed ls.st (some t.key) (some (suggestedName t))), ?_, ?_⟩
        · simp [saves, List.filterMap]
        · rw [mem_save_files]
          exact mark_completed_file_mem ls.st _ _ (suggestedName_ne_empty t)
      · rw [if_neg h3]
        intro f hf
        simp [completions, List.filterMap] at hf
        subst hf
        refine ⟨save (mark_completed ls.st (some t.key) (some (suggestedName t))), ?_, ?_⟩
        · simp [saves, List.filterMap]
        · rw [mem_save_files]
          exact mark_completed_file_mem ls.st _ _ (suggestedName_ne_empty t)
    · simp [h2, completions]

theorem drain_completion_save (resume : Bool) (cancel : Nat → Bool) :
    ∀ (ts : List Target) (i : Nat) (ls : LoopSt),
      ∀ f ∈ completions (drain resume cancel ts i ls).1,
        ∃ sv ∈ saves (drain resume cancel ts i ls).1, f ∈ sv.files := by
  intro ts
  induction ts with
  | nil => intro i ls f hf; simp [drain, completions] at hf
  | cons t rest ih =>
    intro i ls f hf
    by_cases hc : cancel i
    · simp [drain, hc, completions] at hf
    · rw [drain_cons resume cancel t rest i ls (by simpa using hc)] at hf ⊢
      rw [completions_append] at hf
      rw [saves_append]
      rcases List.mem_append.mp hf with hmem | hmem
      · obtain ⟨sv, hsv, hfin⟩ := processTarget_completion_save resume t ls f hmem
        exact ⟨sv, List.mem_append.mpr (Or.inl hsv), hfin⟩
      · obtain ⟨sv, hsv, hfin⟩ := ih (i + 1) (processTarget resume t ls).2 f hmem
        exact ⟨sv, List.mem_append.mpr (Or.inr hsv), hfin⟩

theorem saves_cons_stateSave (sv : SavedState) (l : List DlEvent) :
    saves (DlEvent.stateSave sv :: l) = sv :: saves l := by
  simp [saves]

theorem saves_cons_ctxOpen (l : List DlEvent) :
    saves (DlEvent.ctxOpen :: l) = saves l := by
  simp [saves]

theorem completions_cons_stateSave (sv : SavedState) (l : List DlEvent) :
    completions (DlEvent.stateSave sv :: l) = completions l := by
  simp [completions]

theorem completions_cons_ctxOpen (l : List DlEvent) :
    completions (DlEvent.ctxOpen :: l) = completions l := by
  simp [completions]

/-- Claim C4: the persisted state is always the full document (both arrays
sorted); it is written once at session start as the loaded state merged with
the archive names already on disk, and once after every completion; writes
are cumulative, so no committed history is ever lost, and every completed
filename is contained in a persisted write. -/
theorem claim_C4 (sc : DlScenario) :
    (saves (download_all sc).1).head? = some (save (initMerge sc.loaded sc.diskZips)) ∧
    (∀ n ∈ sc.diskZips, n ∈ (initMerge sc.loaded sc.diskZips).completedFiles) ∧
    (∀ f ∈ sc.loaded.completedFiles, f ∈ (initMerge sc.loaded sc.diskZips).completedFiles) ∧
    (∀ sv ∈ saves (download_all sc).1,
      sv.keys.Sorted (· ≤ ·) ∧ sv.files.Sorted (· ≤ ·)) ∧
    (saves (download_all sc).1).length = (completions (download_all sc).1).length + 1 ∧
    List.Chain' svSub (saves (download_all sc).1) ∧
    (∀ f ∈ completions (download_all sc).1,
      ∃ sv ∈ saves (download_all sc).1, f ∈ sv.files) := by
  rcases hpair : acquire sc.waits 1 with ⟨aevs, r⟩
  have haevs : aevs = (acquire sc.waits 1).1 := by rw [hpair]
  have hsaevs : saves aevs = [] := by rw [haevs]; exact saves_acquire sc.waits 1
  have hcaevs : completions aevs = [] := by rw [haevs]; exact completions_acquire sc.waits 1
  cases r with
  | raised =>
    have hdl : download_all sc
        = (DlEvent.stateSave (save (initMerge sc.loaded sc.diskZips)) :: DlEvent.ctxOpen ::
            aevs, false) := by
      simp only [download_all, hpair]
    rw [hdl]
    have hs0 : saves (DlEvent.stateSave (save (initMerge sc.loaded sc.diskZips)) ::
        DlEvent.ctxOpen :: aevs) = [save (initMerge sc.loaded sc.diskZips)] := by
      rw [saves_cons_stateSave, saves_cons_ctxOpen, hsaevs]
    have hc0 : completions (DlEvent.stateSave (save (initMerge sc.loaded sc.diskZips)) ::
        DlEvent.ctxOpen :: aevs) = [] := by
      rw [completions_cons_stateSave, completions_cons_ctxOpen, hcaevs]
    rw [hs0, hc0]
    refine ⟨rfl, initMerge_mem_disk sc.loaded sc.diskZips,
      initMerge_mem_loaded sc.loaded sc.diskZips, ?_, rfl, List.chain'_singleton _, ?_⟩
    · intro sv hsv
      simp at hsv
      subst hsv
      exact save_sorted _
    · intro f hf
      simp at hf
  | ok targets =>
    by_cases ht : targets.isEmpty
    · have hdl : download_all sc
          = (DlEvent.stateSave (save (initMerge sc.loaded sc.diskZips)) :: DlEvent.ctxOpen ::
              aevs ++ [DlEvent.evStart targets.length
                  (initMerge sc.loaded sc.diskZips).completedKeys.length,
                DlEvent.ctxClose],
            true) := by
        simp only [download_all, hpair, ht, if_pos]
      rw [hdl]
      have hs : saves (DlEvent.stateSave (save (initMerge sc.loaded sc.diskZips)) ::
          DlEvent.ctxOpen :: aevs ++ [DlEvent.evStart targets.length
              (initMerge sc.loaded sc.diskZips).completedKeys.length,
            DlEvent.ctxClose])
          = [save (initMerge sc.loaded sc.diskZips)] := by
        rw [saves_append, saves_cons_stateSave, saves_cons_ctxOpen, hsaevs]
        simp [saves]
      have hcm : completions (DlEvent.stateSave (save (initMerge sc.loaded sc.diskZips)) ::
          DlEvent.ctxOpen :: aevs ++ [DlEvent.evStart targets.length
              (initMerge sc.loaded sc.diskZips).completedKeys.length,
            DlEvent.ctxClose])
          = [] := by
        rw [completions_append, completions_cons_stateSave, completions_cons_ctxOpen, hcaevs]
        simp [completions]
      rw [hs, hcm]
      refine ⟨rfl, initMerge_mem_disk sc.loaded sc.diskZips,
        initMerge_mem_loaded sc.loaded sc.diskZips, ?_, rfl, List.chain'_singleton _, ?_⟩
      · intro sv hsv
        simp at hsv
        subst hsv
        exact save_sorted _
      · intro f hf
        simp at hf
    · obtain ⟨d1, d2, d3, d4, d5⟩ := drain_spec sc.resume sc.cancel targets 0
        ⟨initMerge sc.loaded sc.diskZips, sc.diskZips, 0⟩
      have hdl : download_all sc
          = (DlEvent.stateSave (save (initMerge sc.loaded sc.diskZips)) :: DlEvent.ctxOpen ::
              aevs ++ [DlEvent.evStart targets.length
                  (initMerge sc.loaded sc.diskZips).completedKeys.length]
              ++ (drain sc.resume sc.cancel targets 0
                  ⟨initMerge sc.loaded sc.diskZips, sc.diskZips, 0⟩).1
              ++ [DlEvent.ctxClose, DlEvent.evEnd],
            true) := by
        simp only [download_all, hpair, ht, if_neg, Bool.false_eq_true, not_false_eq_true]
      rw [hdl]
      have hs : saves (DlEvent.stateSave (save (initMerge sc.loaded sc.diskZips)) ::
          DlEvent.ctxOpen :: aevs ++ [DlEvent.evStart targets.length
              (initMerge sc.loaded sc.diskZips).completedKeys.length]
          ++ (drain sc.resume sc.cancel targets 0
              ⟨initMerge sc.loaded sc.diskZips, sc.diskZips, 0⟩).1
          ++ [DlEvent.ctxClose, DlEvent.evEnd])
          = save (initMerge sc.loaded sc.diskZips) ::
            saves (drain sc.resume sc.cancel targets 0
              ⟨initMerge sc.loaded sc.diskZips, sc.diskZips, 0⟩).1 := by
        rw [saves_append, saves_append, saves_append, saves_cons_stateSave,
          saves_cons_ctxOpen, hsaevs]
        simp [saves]
      have hcm : completions (DlEvent.stateSave (save (initMerge sc.loaded sc.diskZips)) ::
          DlEvent.ctxOpen :: aevs ++ [DlEvent.evStart targets.length
              (initMerge sc.loaded sc.diskZips).completedKeys.length]
          ++ (drain sc.resume sc.cancel targets 0
              ⟨initMerge sc.loaded sc.diskZips, sc.diskZips, 0⟩).1
          ++ [DlEvent.ctxClose, DlEvent.evEnd])
          = completions (drain sc.resume sc.cancel targets 0
              ⟨initMerge sc.loaded sc.diskZips, sc.diskZips, 0⟩).1 := by
        rw [completions_append, completions_append, completions_append,
          completions_cons_stateSave, completions_cons_ctxOpen, hcaevs]
        simp [completions]
      rw [hs, hcm]
      refine ⟨rfl, initMerge_mem_disk sc.loaded sc.diskZips,
        initMerge_mem_loaded sc.loaded sc.diskZips, ?_, by simp [d2], ?_, ?_⟩
      · intro sv hsv
        rcases List.mem_cons.mp hsv with rfl | hsv2
        · exact save_sorted _
        · obtain ⟨_, _, hc2, hd2⟩ := d3 sv hsv2
          exact ⟨hc2, hd2⟩
      · rw [List.chain'_cons']
        refine ⟨?_, d4⟩
        intro y hy
        exact (d3 y (mem_of_head?_eq hy)).1
      · intro f hf
        obtain ⟨sv, hsv, hfin⟩ := drain_completion_save sc.resume sc.cancel targets 0
          ⟨initMerge sc.loaded sc.diskZips, sc.diskZips, 0⟩ f hf
        exact ⟨sv, List.mem_cons_of_mem _ hsv, hfin⟩

/-- Witness for claim C4 at a concrete input: a pre-existing `a.zip` on disk
is merged into the completed files and the merged state is the first
persisted write. -/
theorem claim_C4_witness :
    "a.zip" ∈ ["a.zip"] ∧
    "a.zip" ∈ (initMerge ⟨[], []⟩ ["a.zip"]).completedFiles ∧
    (saves (download_all ⟨⟨[], []⟩, ["a.zip"], [WaitResult.timeout], true,
        fun _ => false⟩).1).head?
      = some (save (initMerge ⟨[], []⟩ ["a.zip"])) := by
  refine ⟨by decide, ?_, ?_⟩
  · exact (claim_C4 ⟨⟨[], []⟩, ["a.zip"], [WaitResult.timeout], true,
      fun _ => false⟩).2.1 "a.zip" (by decide)
  · exact (claim_C4 ⟨⟨[], []⟩, ["a.zip"], [WaitResult.timeout], true, fun _ => false⟩).1

/-- Claim C8: cancellation is polled only at the top of each drain
iteration.  A drain under any cancel schedule equals the uncancelled drain
of the target prefix that was admitted before the first set poll — each
admitted target is processed to completion by the cancel-independent
iteration body — and a session whose acquisition succeeded returns normally
with the context-close and terminal events regardless of the cancel
schedule. -/
theorem claim_C8 :
    (∀ (resume : Bool) (cancel : Nat → Bool) (ts : List Target) (i : Nat) (ls : LoopSt),
      drain resume cancel ts i ls
        = drain resume (fun _ => false) (ts.take (runLen cancel i ts.length)) i ls) ∧
    (∀ (sc : DlScenario) (aevs : List DlEvent) (targets : List Target),
      acquire sc.waits 1 = (aevs, AcqResult.ok targets) → targets.isEmpty = false →
      (download_all sc).2 = true ∧
      ∃ pre, (download_all sc).1 = pre ++ [DlEvent.ctxClose, DlEvent.evEnd]) := by
  refine ⟨drain_cancel_factor, ?_⟩
  intro sc aevs targets hacq hne
  have hdl : download_all sc
      = (DlEvent.stateSave (save (initMerge sc.loaded sc.diskZips)) :: DlEvent.ctxOpen ::
          aevs ++ [DlEvent.evStart targets.length
              (initMerge sc.loaded sc.diskZips).completedKeys.length]
          ++ (drain sc.resume sc.cancel targets 0
              ⟨initMerge sc.loaded sc.diskZips, sc.diskZips, 0⟩).1
          ++ [DlEvent.ctxClose, DlEvent.evEnd],
        true) := by
    simp only [download_all, hacq, hne, Bool.false_eq_true, if_false]
  rw [hdl]
  exact ⟨rfl, _, rfl⟩

/-- Witness for claim C8 at concrete inputs: a schedule that cancels at the
second iteration boundary truncates a three-target drain to its first
target, and a cancelled session still ends normally. -/
theorem claim_C8_witness :
    drain true (fun i => i == 1)
        [⟨"k1", "a.zip", true⟩, ⟨"k2", "b.zip", true⟩, ⟨"k3", "c.zip", true⟩] 0
        ⟨⟨[], []⟩, [], 0⟩
      = drain true (fun _ => false)
        ([⟨"k1", "a.zip", true⟩, ⟨"k2", "b.zip", true⟩, ⟨"k3", "c.zip", true⟩].take
          (runLen (fun i => i == 1) 0
            [(⟨"k1", "a.zip", true⟩ : Target), ⟨"k2", "b.zip", true⟩, ⟨"k3", "c.zip", true⟩].length))
        0 ⟨⟨[], []⟩, [], 0⟩ ∧
    acquire [WaitResult.found [⟨"k1", "a.zip", true⟩]] 1
      = ([], AcqResult.ok [⟨"k1", "a.zip", true⟩]) ∧
    ([(⟨"k1", "a.zip", true⟩ : Target)].isEmpty = false) ∧
    (download_all ⟨⟨[], []⟩, [], [WaitResult.found [⟨"k1", "a.zip", true⟩]], true,
        fun i => i == 0⟩).2 = true := by
  refine ⟨claim_C8.1 true (fun i => i == 1) _ 0 _, rfl, rfl, ?_⟩
  exact (claim_C8.2 ⟨⟨[], []⟩, [], [WaitResult.found [⟨"k1", "a.zip", true⟩]], true,
    fun i => i == 0⟩ [] [⟨"k1", "a.zip", true⟩] rfl rfl).1

/-- Counterexample to claim C1 as stated: a filename present in the
persisted completed set whose file is no longer on disk is transferred in
full — membership in `completed_files` alone does not prevent re-transfer,
because the loop checks the disk, not the persisted set. -/
theorem claim_C1_counterexample :
    "a.zip" ∈ (DLState.mk [] ["a.zip"]).completedFiles ∧
    DlEvent.saveAs "a.zip"
      ∈ (download_all ⟨⟨[], ["a.zip"]⟩, [], [WaitResult.found [⟨"k", "a.zip", true⟩]], true,
          fun _ => false⟩).1 := by
  decide

/-- Claim C1 (amended): a target whose key is in the completed-keys set is
skipped with no interaction at all.  Filename-based idempotence is decided
by the disk, not the persisted set: when the suggested file already exists
on disk, the target is marked complete — key and filename recorded and the
state persisted — without the transferred bytes being saved, although the
triggering click still occurs.  In the end-to-end scenario with three of
five suggested files pre-existing, exactly the remaining two are saved,
while all five are recorded complete. -/
theorem claim_C1 :
    (∀ (cancel : Nat → Bool) (ts : List Target) (i : Nat) (ls : LoopSt) (k : String),
      k ∈ ls.st.completedKeys → DlEvent.click k ∉ (drain true cancel ts i ls).1) ∧
    (∀ (t : Target) (ls : LoopSt), t.key ≠ "" → t.transferOk = true →
      t.key ∉ ls.st.completedKeys → suggestedName t ∈ ls.disk →
      (processTarget true t ls).1
        = [DlEvent.click t.key,
           DlEvent.stateSave (save (mark_completed ls.st (some t.key) (some (suggestedName t)))),
           DlEvent.evComplete (suggestedName t)] ∧
      (∀ f, DlEvent.saveAs f ∉ (processTarget true t ls).1) ∧
      t.key ∈ (mark_completed ls.st (some t.key) (some (suggestedName t))).completedKeys ∧
      suggestedName t
        ∈ (mark_completed ls.st (some t.key) (some (suggestedName t))).completedFiles) ∧
    saveAsValues (download_all ⟨⟨[], []⟩, ["a1.zip", "a2.zip", "a3.zip"],
        [WaitResult.found [⟨"k1", "a1.zip", true⟩, ⟨"k2", "a2.zip", true⟩,
          ⟨"k3", "a3.zip", true⟩, ⟨"k4", "b4.zip", true⟩, ⟨"k5", "b5.zip", true⟩]], true,
        fun _ => false⟩).1
      = ["b4.zip", "b5.zip"] ∧
    completions (download_all ⟨⟨[], []⟩, ["a1.zip", "a2.zip", "a3.zip"],
        [WaitResult.found [⟨"k1", "a1.zip", true⟩, ⟨"k2", "a2.zip", true⟩,
          ⟨"k3", "a3.zip", true⟩, ⟨"k4", "b4.zip", true⟩, ⟨"k5", "b5.zip", true⟩]], true,
        fun _ => false⟩).1
      = ["a1.zip", "a2.zip", "a3.zip", "b4.zip", "b5.zip"] := by
  refine ⟨?_, ?_, by decide, by decide⟩
  · intro cancel ts i ls k hk
    exact drain_no_click_of_completed cancel ts i ls k hk
  · intro t ls hkne ht hk hd
    have hpt : (processTarget true t ls).1
        = [DlEvent.click t.key,
           DlEvent.stateSave (save (mark_completed ls.st (some t.key) (some (suggestedName t)))),
           DlEvent.evComplete (suggestedName t)] := by
      unfold processTarget
      simp [hk, ht, hd]
    refine ⟨hpt, ?_, ?_, ?_⟩
    · intro f
      rw [hpt]
      simp
    · exact (mark_completed_mem ls.st t.key (suggestedName t) hkne
        (suggestedName_ne_empty t)).1
    · exact (mark_completed_mem ls.st t.key (suggestedName t) hkne
        (suggestedName_ne_empty t)).2

/-- Witness for claim C1 at concrete inputs: a completed key is never
clicked again, and a pre-existing file is recorded without a byte save. -/
theorem claim_C1_witness :
    "k1" ∈ (DLState.mk ["k1"] []).completedKeys ∧
    DlEvent.click "k1"
      ∉ (drain true (fun _ => false) [⟨"k1", "a.zip", true⟩] 0 ⟨⟨["k1"], []⟩, [], 0⟩).1 ∧
    (processTarget true ⟨"k2", "b.zip", true⟩ ⟨⟨["k1"], []⟩, ["b.zip"], 0⟩).1
      = [DlEvent.click "k2",
         DlEvent.stateSave (save (mark_completed ⟨["k1"], []⟩ (some "k2") (some "b.zip"))),
         DlEvent.evComplete "b.zip"] := by
  refine ⟨by decide, ?_, ?_⟩
  · exact claim_C1.1 (fun _ => false) [⟨"k1", "a.zip", true⟩] 0 ⟨⟨["k1"], []⟩, [], 0⟩ "k1"
      (by decide)
  · have h := (claim_C1.2.1 ⟨"k2", "b.zip", true⟩ ⟨⟨["k1"], []⟩, ["b.zip"], 0⟩
      (by decide) rfl (by decide) (by decide)).1
    exact h
